import Mathlib

/-!
# bounded_double: a value with an outward-rounded enclosure

A shallow embedding of `src/boundedDouble.h`.

Doubles are idealised: a finite double carries an exact rational, and the
four arithmetic operations are exact on finite values (no rounding, no
overflow).  The two infinities and NaN are kept, with the IEEE 754 rules for
them, because the code uses them (the sentinels of binary `apply`, the
unbounded quotient).  Signed zeros are identified: the one zero behaves as
`+0`, and the double `-0.0` has no counterpart here.

`std::nextafter` is library code outside the repository.  Every operation
that steps takes it as its first argument, and the theorems assume of it
what they use: `StrictStep` and `MonoStep` speak of finite values,
`OutwardStep` and `OrderStep` of all doubles, the infinities included.
`nextafter64` is a model of it on the binary64 grid, used wherever a concrete
platform is needed; it meets the four contracts.  With it a bound computed
here can sit one step inside the machine's, since the machine rounds the
corner value before it steps.

Bounds may be infinite: `operator/` returns `(-infinity, +infinity)`, and a
step from the largest finite value is `+infinity`.  The enclosure theorems
cover such operands.  A corner value `0 * infinity` or `infinity - infinity`
is NaN; the loop of binary `apply` skips it, because every comparison with
NaN is false.
-/

namespace BoundedDouble

/-- The idealised `double`. -/
inductive Dbl where
  | nan : Dbl
  | ninf : Dbl
  | fin (q : ℚ) : Dbl
  | pinf : Dbl
  deriving DecidableEq

namespace Dbl

/-- The value is neither NaN nor an infinity. -/
def isFinite : Dbl → Bool
  | fin _ => true
  | _ => false

/-- The `<` of doubles: false as soon as one side is NaN. -/
def lt : Dbl → Dbl → Bool
  | nan, _ => false
  | _, nan => false
  | ninf, ninf => false
  | ninf, _ => true
  | fin _, ninf => false
  | fin a, fin b => decide (a < b)
  | fin _, pinf => true
  | pinf, _ => false

/-- The `<=` of doubles: false as soon as one side is NaN. -/
def le : Dbl → Dbl → Bool
  | nan, _ => false
  | _, nan => false
  | ninf, _ => true
  | fin _, ninf => false
  | fin a, fin b => decide (a ≤ b)
  | fin _, pinf => true
  | pinf, pinf => true
  | pinf, _ => false

/-- The `>` of doubles. -/
def gt (x y : Dbl) : Bool := lt y x

/-- The `>=` of doubles. -/
def ge (x y : Dbl) : Bool := le y x

/-- Unary minus. -/
def neg : Dbl → Dbl
  | nan => nan
  | ninf => pinf
  | fin a => fin (-a)
  | pinf => ninf

/-- The infinity with the sign of `q` (zero counts as positive). -/
def infOfSign (q : ℚ) : Dbl := if q < 0 then ninf else pinf

/-- Addition: exact on finite values, IEEE 754 on the others. -/
def add : Dbl → Dbl → Dbl
  | nan, _ => nan
  | _, nan => nan
  | pinf, ninf => nan
  | ninf, pinf => nan
  | pinf, _ => pinf
  | _, pinf => pinf
  | ninf, _ => ninf
  | _, ninf => ninf
  | fin a, fin b => fin (a + b)

/-- Subtraction: exact on finite values, IEEE 754 on the others. -/
def sub : Dbl → Dbl → Dbl
  | nan, _ => nan
  | _, nan => nan
  | pinf, pinf => nan
  | ninf, ninf => nan
  | pinf, _ => pinf
  | _, ninf => pinf
  | ninf, _ => ninf
  | _, pinf => ninf
  | fin a, fin b => fin (a - b)

/-- Multiplication: exact on finite values, IEEE 754 on the others
(`0 * inf` is NaN). -/
def mul : Dbl → Dbl → Dbl
  | nan, _ => nan
  | _, nan => nan
  | fin a, fin b => fin (a * b)
  | fin a, pinf => if a = 0 then nan else infOfSign a
  | fin a, ninf => if a = 0 then nan else infOfSign (-a)
  | pinf, fin b => if b = 0 then nan else infOfSign b
  | ninf, fin b => if b = 0 then nan else infOfSign (-b)
  | pinf, pinf => pinf
  | ninf, ninf => pinf
  | pinf, ninf => ninf
  | ninf, pinf => ninf

/-- Division: exact on finite values with a nonzero divisor, IEEE 754 on the
others (`0 / 0` and `inf / inf` are NaN, a nonzero value over zero is an
infinity, a finite value over an infinity is zero).  The zero of the model
is `+0`: a value over zero keeps its own sign.  A quotient of finite values
is exact, so it does not overflow. -/
def div : Dbl → Dbl → Dbl
  | nan, _ => nan
  | _, nan => nan
  | fin a, fin b =>
      if b = 0 then (if a = 0 then nan else infOfSign a) else fin (a / b)
  | fin _, pinf => fin 0
  | fin _, ninf => fin 0
  | pinf, fin b => infOfSign b
  | ninf, fin b => neg (infOfSign b)
  | pinf, pinf => nan
  | pinf, ninf => nan
  | ninf, pinf => nan
  | ninf, ninf => nan

/-- `std::min(a, b)`: `(b < a) ? b : a`. -/
def min (a b : Dbl) : Dbl := if lt b a then b else a

/-- `std::max(a, b)`: `(a < b) ? b : a`. -/
def max (a b : Dbl) : Dbl := if lt a b then b else a

/-- The double is at most the real `r`. -/
def leReal : Dbl → ℝ → Prop
  | ninf, _ => True
  | fin q, r => (q : ℝ) ≤ r
  | _, _ => False

/-- The double is at least the real `r`. -/
def geReal : Dbl → ℝ → Prop
  | pinf, _ => True
  | fin q, r => r ≤ (q : ℝ)
  | _, _ => False

/-- The factor that turns a quotient into a product: `x / v` is `x * recip v`
for every divisor `v` other than zero and NaN (an infinite divisor gives the
factor zero). -/
def recip : Dbl → Dbl
  | nan => nan
  | ninf => fin 0
  | fin b => fin b⁻¹
  | pinf => fin 0

end Dbl

open Dbl

/-- The three fields of `class bounded_double`. -/
structure bounded_double where
  typical : Dbl
  min : Dbl
  max : Dbl
  deriving DecidableEq

/-- `bounded_double::down`: `std::nextafter(x, -infinity)`. -/
def down (nextafter : Dbl → Dbl → Dbl) (x : Dbl) : Dbl := nextafter x ninf

/-- `bounded_double::up`: `std::nextafter(x, +infinity)`. -/
def up (nextafter : Dbl → Dbl → Dbl) (x : Dbl) : Dbl := nextafter x pinf

/-- The constructor `bounded_double(double min, double typical, double max)`. -/
def mk3 (min typical max : Dbl) : bounded_double :=
  { typical := typical, min := min, max := max }

/-- `operator=(const double value)`, which `bounded_double(double value)` runs:
the promotion of a scalar. -/
def assign (nextafter : Dbl → Dbl → Dbl) (value : Dbl) : bounded_double :=
  { min := down nextafter value, max := up nextafter value, typical := value }

/-- Unary `apply(f)`. -/
def apply (nextafter : Dbl → Dbl → Dbl) (f : Dbl → Dbl) (self : bounded_double) :
    bounded_double :=
  let left_res := f self.min
  let right_res := f self.max
  { min := down nextafter (Dbl.min left_res right_res),
    max := up nextafter (Dbl.max left_res right_res),
    typical := f self.typical }

/-- One pass of the loop body of binary `apply` over the running
`(result.min, result.max)`, for the corner number `type`. -/
def applyStep (nextafter : Dbl → Dbl → Dbl) (f : Dbl → Dbl → Dbl)
    (self rhs : bounded_double) (acc : Dbl × Dbl) (type : Nat) : Dbl × Dbl :=
  let lval := if type &&& (1 <<< 0) ≠ 0 then self.min else self.max
  let rval := if type &&& (1 <<< 1) ≠ 0 then rhs.min else rhs.max
  let fres := f lval rval
  let rmin := if Dbl.lt (down nextafter fres) acc.1 then down nextafter fres else acc.1
  let rmax := if Dbl.gt (up nextafter fres) acc.2 then up nextafter fres else acc.2
  (rmin, rmax)

/-- Binary `apply(f, rhs)`: the loop over `type = 0 .. (1<<2) - 1`, started
from `(+infinity, -infinity)`. -/
def apply2 (nextafter : Dbl → Dbl → Dbl) (f : Dbl → Dbl → Dbl)
    (self rhs : bounded_double) : bounded_double :=
  let res := (List.range (1 <<< 2)).foldl (applyStep nextafter f self rhs) (pinf, ninf)
  { min := res.1, max := res.2, typical := f self.typical rhs.typical }

/-- The lambda `a + b` of `operator+`. -/
def plus (a b : Dbl) : Dbl := Dbl.add a b

/-- The lambda `a - b` of `operator-`. -/
def minus (a b : Dbl) : Dbl := Dbl.sub a b

/-- The lambda `a * b` of `operator*`. -/
def times (a b : Dbl) : Dbl := Dbl.mul a b

/-- The lambda `a / b` of `operator/`. -/
def divide (a b : Dbl) : Dbl := Dbl.div a b

/-- `operator+(const bounded_double& rhs)`. -/
def opAdd (nextafter : Dbl → Dbl → Dbl) (self rhs : bounded_double) : bounded_double :=
  apply2 nextafter plus self rhs

/-- `operator-(const bounded_double& rhs)`. -/
def opSub (nextafter : Dbl → Dbl → Dbl) (self rhs : bounded_double) : bounded_double :=
  apply2 nextafter minus self rhs

/-- `operator*(const bounded_double& rhs)`. -/
def opMul (nextafter : Dbl → Dbl → Dbl) (self rhs : bounded_double) : bounded_double :=
  apply2 nextafter times self rhs

/-- `operator/(const bounded_double& rhs)`.  (The source closes the `else`
block and leaves out the closing brace of the function; the body is read as
the `if` / `else` it spells.) -/
def opDiv (nextafter : Dbl → Dbl → Dbl) (self rhs : bounded_double) : bounded_double :=
  if Dbl.le rhs.min (fin 0) && Dbl.ge rhs.max (fin 0) then
    { min := ninf, max := pinf, typical := Dbl.div self.typical rhs.typical }
  else
    apply2 nextafter divide self rhs

/-- `operator*(const double value)`. -/
def opMulScalar (nextafter : Dbl → Dbl → Dbl) (self : bounded_double) (value : Dbl) :
    bounded_double :=
  apply2 nextafter times self (assign nextafter value)

/-- Unary `operator-()`: `(*this) * (-1)`. -/
def opNeg (nextafter : Dbl → Dbl → Dbl) (self : bounded_double) : bounded_double :=
  opMulScalar nextafter self (fin (-1))

/-- `operator>(const bounded_double& rhs)`. -/
def opGt (self rhs : bounded_double) : Bool := Dbl.gt self.typical rhs.typical

/-- `operator<(const bounded_double& rhs)`. -/
def opLt (self rhs : bounded_double) : Bool := Dbl.lt self.typical rhs.typical

/-- `operator<=(const bounded_double& rhs)`. -/
def opLe (self rhs : bounded_double) : Bool := Dbl.le self.typical rhs.typical

/-- `operator>=(const bounded_double& rhs)`. -/
def opGe (self rhs : bounded_double) : Bool := Dbl.ge self.typical rhs.typical

/-- `operator>(double value)`. -/
def opGtScalar (self : bounded_double) (value : Dbl) : Bool := Dbl.gt self.typical value

/-- `operator<(double value)`. -/
def opLtScalar (self : bounded_double) (value : Dbl) : Bool := Dbl.lt self.typical value

/-- `operator<=(double value)`. -/
def opLeScalar (self : bounded_double) (value : Dbl) : Bool := Dbl.le self.typical value

/-- `operator>=(double value)`. -/
def opGeScalar (self : bounded_double) (value : Dbl) : Bool := Dbl.ge self.typical value

/-- `operator=(const bounded_double& rhs)`: the receiver after the copy of
the three fields. -/
def assignFrom (_self rhs : bounded_double) : bounded_double :=
  { min := rhs.min, max := rhs.max, typical := rhs.typical }

/-- `operator+=(const bounded_double& rhs)`: the receiver afterwards. -/
def opAddAssign (nextafter : Dbl → Dbl → Dbl) (self rhs : bounded_double) : bounded_double :=
  assignFrom self (apply2 nextafter plus self rhs)

/-- `operator-=(const bounded_double& rhs)`: the receiver afterwards. -/
def opSubAssign (nextafter : Dbl → Dbl → Dbl) (self rhs : bounded_double) : bounded_double :=
  assignFrom self (apply2 nextafter minus self rhs)

/-- `operator*=(const bounded_double& rhs)`: the receiver afterwards. -/
def opMulAssign (nextafter : Dbl → Dbl → Dbl) (self rhs : bounded_double) : bounded_double :=
  assignFrom self (apply2 nextafter times self rhs)

/-- `operator/=(const bounded_double& rhs)`: the receiver afterwards.  In the
first branch the three fields are written one by one, `typical` last
(`typical /= rhs.typical`). -/
def opDivAssign (nextafter : Dbl → Dbl → Dbl) (self rhs : bounded_double) : bounded_double :=
  if Dbl.le rhs.min (fin 0) && Dbl.ge rhs.max (fin 0) then
    { min := ninf, max := pinf, typical := Dbl.div self.typical rhs.typical }
  else
    assignFrom self (apply2 nextafter divide self rhs)

/-- `operator+(const double value)`. -/
def opAddScalar (nextafter : Dbl → Dbl → Dbl) (self : bounded_double) (value : Dbl) :
    bounded_double :=
  apply2 nextafter plus self (assign nextafter value)

/-- `operator-(const double value)`. -/
def opSubScalar (nextafter : Dbl → Dbl → Dbl) (self : bounded_double) (value : Dbl) :
    bounded_double :=
  apply2 nextafter minus self (assign nextafter value)

/-- `operator/(const double value)`. -/
def opDivScalar (nextafter : Dbl → Dbl → Dbl) (self : bounded_double) (value : Dbl) :
    bounded_double :=
  apply2 nextafter divide self (assign nextafter value)

/-- `operator+=(const double value)`: the receiver afterwards. -/
def opAddAssignScalar (nextafter : Dbl → Dbl → Dbl) (self : bounded_double) (value : Dbl) :
    bounded_double :=
  assignFrom self (apply2 nextafter plus self (assign nextafter value))

/-- `operator-=(const double value)`: the receiver afterwards. -/
def opSubAssignScalar (nextafter : Dbl → Dbl → Dbl) (self : bounded_double) (value : Dbl) :
    bounded_double :=
  assignFrom self (apply2 nextafter minus self (assign nextafter value))

/-- `operator*=(const double value)`: the receiver afterwards. -/
def opMulAssignScalar (nextafter : Dbl → Dbl → Dbl) (self : bounded_double) (value : Dbl) :
    bounded_double :=
  assignFrom self (apply2 nextafter times self (assign nextafter value))

/-- `operator/=(const double value)`: the receiver afterwards. -/
def opDivAssignScalar (nextafter : Dbl → Dbl → Dbl) (self : bounded_double) (value : Dbl) :
    bounded_double :=
  assignFrom self (apply2 nextafter divide self (assign nextafter value))

/-! ## A binary64 model of `std::nextafter` -/

/-- Largest finite binary64 value. -/
def DBL_MAX : ℚ := (2 ^ 53 - 1) * 2 ^ 971

/-- Exponent of the binade that holds the magnitudes just above `m ≥ 0`
(`2^e ≤ m < 2^(e+1)`), not below the subnormal exponent. -/
def expAbove (m : ℚ) : ℤ := if m = 0 then -1022 else Max.max (Int.log 2 m) (-1022)

/-- Exponent of the binade that holds the magnitudes just below `m > 0`
(`2^e < m ≤ 2^(e+1)`), not below the subnormal exponent. -/
def expBelow (m : ℚ) : ℤ := if m = 0 then -1022 else Max.max (Int.clog 2 m - 1) (-1022)

/-- Spacing of the binary64 values met when leaving `q` upwards. -/
def ulpUp (q : ℚ) : ℚ := 2 ^ ((if 0 ≤ q then expAbove q else expBelow (-q)) - 52)

/-- Modelled from the spec: `stepUp`, "the next representable value strictly
greater than `x`", which the code takes from `std::nextafter` (library code,
not under `src/`).  The least binary64 value strictly above the rational `q`,
`+infinity` from the largest finite value on. -/
def succ64 (q : ℚ) : Dbl :=
  if DBL_MAX ≤ q then pinf
  else if q < -DBL_MAX then fin (-DBL_MAX)
  else fin ((⌊q / ulpUp q⌋ + 1) * ulpUp q)

/-- Modelled from the spec: `stepDown`, "the next representable floating-point
value strictly less than `x`", which the code takes from `std::nextafter`
(library code, not under `src/`).  The greatest binary64 value strictly below
the rational `q`. -/
def pred64 (q : ℚ) : Dbl := Dbl.neg (succ64 (-q))

/-- Modelled from the spec: `std::nextafter(x, y)`, library code that is not
under `src/`, on binary64: NaN if either is NaN, `y` if they are equal, else
the neighbour of `x` on the side of `y`. -/
def nextafter64 : Dbl → Dbl → Dbl
  | nan, _ => nan
  | _, nan => nan
  | ninf, y => if y = ninf then y else fin (-DBL_MAX)
  | pinf, y => if y = pinf then y else fin DBL_MAX
  | fin q, y =>
      if fin q = y then y
      else if Dbl.lt (fin q) y then succ64 q
      else pred64 q

/-- The contract of `std::nextafter` on finite values: the step towards
`-infinity` is strictly below its argument, the step towards `+infinity`
strictly above. -/
def StrictStep (nextafter : Dbl → Dbl → Dbl) : Prop :=
  ∀ q : ℚ, Dbl.lt (down nextafter (fin q)) (fin q) = true ∧
    Dbl.lt (fin q) (up nextafter (fin q)) = true

/-- The real `r` lies between the bounds of `v`. -/
def encloses (v : bounded_double) (r : ℝ) : Prop := v.min.leReal r ∧ v.max.geReal r

/-- The update of the running minimum in the loop body. -/
def stepMin (d acc : Dbl) : Dbl := if Dbl.lt d acc then d else acc

/-- The update of the running maximum in the loop body. -/
def stepMax (u acc : Dbl) : Dbl := if Dbl.gt u acc then u else acc

/-- The values of `f` at the four corners, in the order the loop visits them. -/
def corners (f : Dbl → Dbl → Dbl) (self rhs : bounded_double) : List Dbl :=
  [f self.max rhs.max, f self.min rhs.max, f self.max rhs.min, f self.min rhs.min]

/-- `f` is non-decreasing between `lo` and `hi`. -/
def NonDecreasingOn (f : Dbl → Dbl) (lo hi : Dbl) : Prop :=
  ∀ x y : Dbl, Dbl.le lo x = true → Dbl.le x y = true → Dbl.le y hi = true →
    Dbl.le (f x) (f y) = true

/-- `f` is non-increasing between `lo` and `hi`. -/
def NonIncreasingOn (f : Dbl → Dbl) (lo hi : Dbl) : Prop :=
  ∀ x y : Dbl, Dbl.le lo x = true → Dbl.le x y = true → Dbl.le y hi = true →
    Dbl.le (f y) (f x) = true

/-- Order preservation of the two steps on finite values. -/
def MonoStep (nextafter : Dbl → Dbl → Dbl) : Prop :=
  ∀ p q : ℚ, p ≤ q →
    Dbl.le (down nextafter (fin p)) (down nextafter (fin q)) = true ∧
    Dbl.le (up nextafter (fin p)) (up nextafter (fin q)) = true

/-- Binary apply as the specification words it (§4.4): `f` at the four corner
combinations `(lowerL,lowerR)`, `(lowerL,upperR)`, `(upperL,lowerR)`,
`(upperL,upperR)`; `lower` is the step down of the least of the four, `upper`
the step up of the greatest, `typical` is `f(typicalL, typicalR)`. -/
def apply2Spec (nextafter : Dbl → Dbl → Dbl) (f : Dbl → Dbl → Dbl)
    (self rhs : bounded_double) : bounded_double :=
  let c1 := f self.min rhs.min
  let c2 := f self.min rhs.max
  let c3 := f self.max rhs.min
  let c4 := f self.max rhs.max
  { min := down nextafter (Dbl.min (Dbl.min c1 c2) (Dbl.min c3 c4)),
    max := up nextafter (Dbl.max (Dbl.max c1 c2) (Dbl.max c3 c4)),
    typical := f self.typical rhs.typical }

/-- The pair of arguments the loop of binary `apply` passes to `f` at the
corner number `type`. -/
def cornerArgs (self rhs : bounded_double) (type : Nat) : Dbl × Dbl :=
  (if type &&& (1 <<< 0) ≠ 0 then self.min else self.max,
   if type &&& (1 <<< 1) ≠ 0 then rhs.min else rhs.max)

/-- The invariant `lower <= typical <= upper` of a bounded value. -/
def typicalEnclosed (v : bounded_double) : Prop :=
  Dbl.le v.min v.typical = true ∧ Dbl.le v.typical v.max = true

/-- The binade exponent `ulpUp` uses at `q`. -/
def expOf (q : ℚ) : ℤ := if 0 ≤ q then expAbove q else expBelow (-q)

/-- The contract of `std::nextafter` on every double that is not NaN: the
step towards `-infinity` is strictly below its argument and the step towards
`+infinity` strictly above it, except that an infinity stepped towards itself
stays (`nextafter(x, y)` is `y` when `x == y`). -/
def OutwardStep (nextafter : Dbl → Dbl → Dbl) : Prop :=
  ∀ z : Dbl, z ≠ nan →
    (if z = ninf then down nextafter z = ninf else Dbl.lt (down nextafter z) z = true) ∧
    (if z = pinf then up nextafter z = pinf else Dbl.lt z (up nextafter z) = true)

namespace Dbl

theorem lt_fin_iff (a b : ℚ) : lt (fin a) (fin b) = true ↔ a < b := by
  simp [lt]

theorem le_fin_iff (a b : ℚ) : le (fin a) (fin b) = true ↔ a ≤ b := by
  simp [le]

theorem ne_nan_of_lt_left {x y : Dbl} (h : lt x y = true) : x ≠ nan := by
  cases x <;> simp_all [lt]

theorem ne_nan_of_lt_right {x y : Dbl} (h : lt x y = true) : y ≠ nan := by
  cases x <;> cases y <;> simp_all [lt]

theorem ne_nan_of_le_left {x y : Dbl} (h : le x y = true) : x ≠ nan := by
  cases x <;> simp_all [le]

theorem ne_nan_of_le_right {x y : Dbl} (h : le x y = true) : y ≠ nan := by
  cases x <;> cases y <;> simp_all [le]

theorem le_of_lt {x y : Dbl} (h : lt x y = true) : le x y = true := by
  cases x <;> cases y <;> simp_all [lt, le]
  exact h.le

theorem le_rfl {x : Dbl} (hx : x ≠ nan) : le x x = true := by
  cases x <;> simp_all [le]

theorem le_trans {x y z : Dbl} (h : le x y = true) (k : le y z = true) : le x z = true := by
  cases x <;> cases y <;> cases z <;> simp_all [le]
  exact h.trans k

theorem lt_of_lt_of_le {x y z : Dbl} (h : lt x y = true) (k : le y z = true) :
    lt x z = true := by
  cases x <;> cases y <;> cases z <;> simp_all [lt, le]
  exact h.trans_le k

theorem lt_of_le_of_lt {x y z : Dbl} (h : le x y = true) (k : lt y z = true) :
    lt x z = true := by
  cases x <;> cases y <;> cases z <;> simp_all [lt, le]
  exact h.trans_lt k

theorem le_of_not_lt {x y : Dbl} (hx : x ≠ nan) (hy : y ≠ nan) (h : lt x y = false) :
    le y x = true := by
  cases x <;> cases y <;> simp_all [lt, le]

theorem not_lt_of_le {x y : Dbl} (h : le x y = true) : lt y x = false := by
  cases x <;> cases y <;> simp_all [lt, le]

theorem not_le_of_lt {x y : Dbl} (h : lt x y = true) : le y x = false := by
  cases x <;> cases y <;> simp_all [lt, le]

theorem leReal_of_le {x y : Dbl} {r : ℝ} (h : le x y = true) (k : leReal y r) :
    leReal x r := by
  cases x <;> cases y <;> simp_all [le, leReal]
  have h2 : (_ : ℝ) ≤ _ := (Rat.cast_le (K := ℝ)).2 h
  linarith

theorem geReal_of_le {x y : Dbl} {r : ℝ} (h : le x y = true) (k : geReal x r) :
    geReal y r := by
  cases x <;> cases y <;> simp_all [le, geReal]
  have h2 : (_ : ℝ) ≤ _ := (Rat.cast_le (K := ℝ)).2 h
  linarith

theorem leReal_of_lt_fin {x : Dbl} {q : ℚ} {r : ℝ} (h : lt x (fin q) = true)
    (k : (q : ℝ) ≤ r) : leReal x r := by
  cases x <;> simp_all [lt, leReal]
  have h2 : (_ : ℝ) < _ := (Rat.cast_lt (K := ℝ)).2 h
  linarith

theorem geReal_of_fin_lt {x : Dbl} {q : ℚ} {r : ℝ} (h : lt (fin q) x = true)
    (k : r ≤ (q : ℝ)) : geReal x r := by
  cases x <;> simp_all [lt, geReal]
  have h2 : (_ : ℝ) < _ := (Rat.cast_lt (K := ℝ)).2 h
  linarith

theorem min_eq_left_of_le {x y : Dbl} (h : le x y = true) : Dbl.min x y = x := by
  simp [Dbl.min, not_lt_of_le h]

theorem max_eq_right_of_le {x y : Dbl} (h : le x y = true) : Dbl.max x y = y := by
  cases x <;> cases y <;> simp_all [Dbl.max, lt, le]
  intro h2
  exact le_antisymm h h2

theorem min_eq_right_of_le {x y : Dbl} (h : le y x = true) : Dbl.min x y = y := by
  cases x <;> cases y <;> simp_all [Dbl.min, lt, le]
  intro h2
  exact le_antisymm h2 h

theorem max_eq_left_of_le {x y : Dbl} (h : le y x = true) : Dbl.max x y = x := by
  simp [Dbl.max, not_lt_of_le h]

theorem lt_trans {x y z : Dbl} (h : lt x y = true) (k : lt y z = true) : lt x z = true :=
  lt_of_lt_of_le h (le_of_lt k)

theorem leReal_cast_iff {x : Dbl} {q : ℚ} : leReal x (q : ℝ) ↔ le x (fin q) = true := by
  cases x <;> simp [leReal, le]

theorem geReal_cast_iff {x : Dbl} {q : ℚ} : geReal x (q : ℝ) ↔ le (fin q) x = true := by
  cases x <;> simp [geReal, le]

theorem isFinite_of_between {x t y : Dbl} (hx : x.isFinite = true) (hy : y.isFinite = true)
    (h1 : le x t = true) (h2 : le t y = true) : t.isFinite = true := by
  cases x <;> cases y <;> cases t <;> simp_all [le, isFinite]

theorem isFinite_iff {x : Dbl} : x.isFinite = true ↔ ∃ q : ℚ, x = fin q := by
  cases x <;> simp [isFinite]

end Dbl

/-! ## The loop of binary `apply`, unrolled -/

theorem stepMin_ne_nan {d acc : Dbl} (h : acc ≠ nan) : stepMin d acc ≠ nan := by
  unfold stepMin
  split
  · next hlt => exact Dbl.ne_nan_of_lt_left hlt
  · exact h

theorem stepMin_le_acc {d acc : Dbl} (h : acc ≠ nan) : Dbl.le (stepMin d acc) acc = true := by
  unfold stepMin
  split
  · next hlt => exact Dbl.le_of_lt hlt
  · exact Dbl.le_rfl h

theorem stepMin_le_new {d acc : Dbl} (h : acc ≠ nan) (hd : d ≠ nan) :
    Dbl.le (stepMin d acc) d = true := by
  unfold stepMin
  split
  · exact Dbl.le_rfl hd
  · next hlt => exact Dbl.le_of_not_lt hd h (by simpa using hlt)

theorem stepMax_ne_nan {u acc : Dbl} (h : acc ≠ nan) : stepMax u acc ≠ nan := by
  unfold stepMax Dbl.gt
  split
  · next hlt => exact Dbl.ne_nan_of_lt_right hlt
  · exact h

theorem stepMax_ge_acc {u acc : Dbl} (h : acc ≠ nan) : Dbl.le acc (stepMax u acc) = true := by
  unfold stepMax Dbl.gt
  split
  · next hlt => exact Dbl.le_of_lt hlt
  · exact Dbl.le_rfl h

theorem stepMax_ge_new {u acc : Dbl} (h : acc ≠ nan) (hu : u ≠ nan) :
    Dbl.le u (stepMax u acc) = true := by
  unfold stepMax Dbl.gt
  split
  · exact Dbl.le_rfl hu
  · next hlt => exact Dbl.le_of_not_lt h hu (by simpa using hlt)

theorem applyStep_eq (nextafter : Dbl → Dbl → Dbl) (f : Dbl → Dbl → Dbl)
    (self rhs : bounded_double) (acc : Dbl × Dbl) :
    applyStep nextafter f self rhs acc 0
        = (stepMin (down nextafter (f self.max rhs.max)) acc.1,
           stepMax (up nextafter (f self.max rhs.max)) acc.2) ∧
    applyStep nextafter f self rhs acc 1
        = (stepMin (down nextafter (f self.min rhs.max)) acc.1,
           stepMax (up nextafter (f self.min rhs.max)) acc.2) ∧
    applyStep nextafter f self rhs acc 2
        = (stepMin (down nextafter (f self.max rhs.min)) acc.1,
           stepMax (up nextafter (f self.max rhs.min)) acc.2) ∧
    applyStep nextafter f self rhs acc 3
        = (stepMin (down nextafter (f self.min rhs.min)) acc.1,
           stepMax (up nextafter (f self.min rhs.min)) acc.2) := by
  refine ⟨?_, ?_, ?_, ?_⟩ <;> simp [applyStep, stepMin, stepMax]

/-- The lower bound binary `apply` returns: the running minimum over the four
stepped corner values, from the sentinel `+infinity`. -/
theorem apply2_min (nextafter : Dbl → Dbl → Dbl) (f : Dbl → Dbl → Dbl)
    (self rhs : bounded_double) :
    (apply2 nextafter f self rhs).min
      = stepMin (down nextafter (f self.min rhs.min))
          (stepMin (down nextafter (f self.max rhs.min))
            (stepMin (down nextafter (f self.min rhs.max))
              (stepMin (down nextafter (f self.max rhs.max)) pinf))) := by
  have hr : List.range (1 <<< 2) = [0, 1, 2, 3] := by decide
  simp only [apply2, hr, List.foldl_cons, List.foldl_nil]
  rw [(applyStep_eq nextafter f self rhs _).2.2.2, (applyStep_eq nextafter f self rhs _).2.2.1,
    (applyStep_eq nextafter f self rhs _).2.1, (applyStep_eq nextafter f self rhs _).1]

/-- The upper bound binary `apply` returns: the running maximum over the four
stepped corner values, from the sentinel `-infinity`. -/
theorem apply2_max (nextafter : Dbl → Dbl → Dbl) (f : Dbl → Dbl → Dbl)
    (self rhs : bounded_double) :
    (apply2 nextafter f self rhs).max
      = stepMax (up nextafter (f self.min rhs.min))
          (stepMax (up nextafter (f self.max rhs.min))
            (stepMax (up nextafter (f self.min rhs.max))
              (stepMax (up nextafter (f self.max rhs.max)) ninf))) := by
  have hr : List.range (1 <<< 2) = [0, 1, 2, 3] := by decide
  simp only [apply2, hr, List.foldl_cons, List.foldl_nil]
  rw [(applyStep_eq nextafter f self rhs _).2.2.2, (applyStep_eq nextafter f self rhs _).2.2.1,
    (applyStep_eq nextafter f self rhs _).2.1, (applyStep_eq nextafter f self rhs _).1]

/-- The returned lower bound is at most every stepped corner value that is
not NaN. -/
theorem apply2_min_le_down (nextafter : Dbl → Dbl → Dbl) (f : Dbl → Dbl → Dbl)
    (self rhs : bounded_double) {c : Dbl} (hc : c ∈ corners f self rhs)
    (hd : down nextafter c ≠ nan) :
    Dbl.le (apply2 nextafter f self rhs).min (down nextafter c) = true := by
  rw [apply2_min]
  have p0 : (pinf : Dbl) ≠ nan := by simp
  have p1 := stepMin_ne_nan (d := down nextafter (f self.max rhs.max)) p0
  have p2 := stepMin_ne_nan (d := down nextafter (f self.min rhs.max)) p1
  have p3 := stepMin_ne_nan (d := down nextafter (f self.max rhs.min)) p2
  simp only [corners, List.mem_cons, List.mem_singleton, List.not_mem_nil, or_false] at hc
  rcases hc with rfl | rfl | rfl | rfl
  · exact Dbl.le_trans (stepMin_le_acc p3) (Dbl.le_trans (stepMin_le_acc p2)
      (Dbl.le_trans (stepMin_le_acc p1) (stepMin_le_new p0 hd)))
  · exact Dbl.le_trans (stepMin_le_acc p3) (Dbl.le_trans (stepMin_le_acc p2)
      (stepMin_le_new p1 hd))
  · exact Dbl.le_trans (stepMin_le_acc p3) (stepMin_le_new p2 hd)
  · exact stepMin_le_new p3 hd

/-- The returned upper bound is at least every stepped corner value that is
not NaN. -/
theorem apply2_max_ge_up (nextafter : Dbl → Dbl → Dbl) (f : Dbl → Dbl → Dbl)
    (self rhs : bounded_double) {c : Dbl} (hc : c ∈ corners f self rhs)
    (hu : up nextafter c ≠ nan) :
    Dbl.le (up nextafter c) (apply2 nextafter f self rhs).max = true := by
  rw [apply2_max]
  have p0 : (ninf : Dbl) ≠ nan := by simp
  have p1 := stepMax_ne_nan (u := up nextafter (f self.max rhs.max)) p0
  have p2 := stepMax_ne_nan (u := up nextafter (f self.min rhs.max)) p1
  have p3 := stepMax_ne_nan (u := up nextafter (f self.max rhs.min)) p2
  simp only [corners, List.mem_cons, List.mem_singleton, List.not_mem_nil, or_false] at hc
  rcases hc with rfl | rfl | rfl | rfl
  · exact Dbl.le_trans (Dbl.le_trans (Dbl.le_trans (stepMax_ge_new p0 hu) (stepMax_ge_acc p1))
      (stepMax_ge_acc p2)) (stepMax_ge_acc p3)
  · exact Dbl.le_trans (Dbl.le_trans (stepMax_ge_new p1 hu) (stepMax_ge_acc p2))
      (stepMax_ge_acc p3)
  · exact Dbl.le_trans (stepMax_ge_new p2 hu) (stepMax_ge_acc p3)
  · exact stepMax_ge_new p3 hu

/-- Under the stepping contract the returned lower bound is strictly below
every finite corner value. -/
theorem apply2_min_lt_corner {nextafter : Dbl → Dbl → Dbl} (hstep : StrictStep nextafter)
    (f : Dbl → Dbl → Dbl) (self rhs : bounded_double) {q : ℚ}
    (hc : fin q ∈ corners f self rhs) :
    Dbl.lt (apply2 nextafter f self rhs).min (fin q) = true :=
  Dbl.lt_of_le_of_lt
    (apply2_min_le_down nextafter f self rhs hc (Dbl.ne_nan_of_lt_left (hstep q).1))
    (hstep q).1

/-- Under the stepping contract the returned upper bound is strictly above
every finite corner value. -/
theorem apply2_max_gt_corner {nextafter : Dbl → Dbl → Dbl} (hstep : StrictStep nextafter)
    (f : Dbl → Dbl → Dbl) (self rhs : bounded_double) {q : ℚ}
    (hc : fin q ∈ corners f self rhs) :
    Dbl.lt (fin q) (apply2 nextafter f self rhs).max = true :=
  Dbl.lt_of_lt_of_le (hstep q).2
    (apply2_max_ge_up nextafter f self rhs hc (Dbl.ne_nan_of_lt_right (hstep q).2))

/-- A real that lies between two finite corner values is enclosed by the
result of binary `apply`. -/
theorem apply2_encloses {nextafter : Dbl → Dbl → Dbl} (hstep : StrictStep nextafter)
    (f : Dbl → Dbl → Dbl) (self rhs : bounded_double) {p q : ℚ} {r : ℝ}
    (hp : fin p ∈ corners f self rhs) (hq : fin q ∈ corners f self rhs)
    (hpr : (p : ℝ) ≤ r) (hrq : r ≤ (q : ℝ)) :
    encloses (apply2 nextafter f self rhs) r :=
  ⟨Dbl.leReal_of_lt_fin (apply2_min_lt_corner hstep f self rhs hp) hpr,
   Dbl.geReal_of_fin_lt (apply2_max_gt_corner hstep f self rhs hq) hrq⟩

/-! ## The binary64 model meets the stepping contract -/

theorem ulpUp_pos (q : ℚ) : 0 < ulpUp q := by
  unfold ulpUp
  exact zpow_pos (by norm_num) _

theorem lt_succ64 (q : ℚ) : Dbl.lt (fin q) (succ64 q) = true := by
  unfold succ64
  split
  · simp [Dbl.lt]
  · split
    · next h => simpa [Dbl.lt] using h
    · rw [Dbl.lt_fin_iff]
      have h := Int.lt_floor_add_one (q / ulpUp q)
      have hu := ulpUp_pos q
      calc q = q / ulpUp q * ulpUp q := by field_simp
        _ < (⌊q / ulpUp q⌋ + 1) * ulpUp q := by
            apply mul_lt_mul_of_pos_right _ hu
            exact_mod_cast h

theorem pred64_lt (q : ℚ) : Dbl.lt (pred64 q) (fin q) = true := by
  have h := lt_succ64 (-q)
  unfold pred64
  cases hs : succ64 (-q) <;> rw [hs] at h <;> simp_all [Dbl.lt, Dbl.neg]
  linarith

theorem nextafter64_strict : StrictStep nextafter64 := by
  intro q
  constructor
  · have h : down nextafter64 (fin q) = pred64 q := by
      simp [down, nextafter64, Dbl.lt]
    rw [h]; exact pred64_lt q
  · have h : up nextafter64 (fin q) = succ64 q := by
      simp [up, nextafter64, Dbl.lt]
    rw [h]; exact lt_succ64 q

/-! ## Extremes of products and quotients over a box -/

theorem mul_corner_lower {al au bl bu x y : ℝ} (hx1 : al ≤ x) (hx2 : x ≤ au)
    (hy1 : bl ≤ y) (hy2 : y ≤ bu) :
    al * bl ≤ x * y ∨ al * bu ≤ x * y ∨ au * bl ≤ x * y ∨ au * bu ≤ x * y := by
  rcases le_total 0 y with h | h
  · rcases le_total 0 al with k | k
    · left; nlinarith
    · right; left; nlinarith
  · rcases le_total 0 au with k | k
    · right; right; left; nlinarith
    · right; right; right; nlinarith

theorem mul_corner_upper {al au bl bu x y : ℝ} (hx1 : al ≤ x) (hx2 : x ≤ au)
    (hy1 : bl ≤ y) (hy2 : y ≤ bu) :
    x * y ≤ al * bl ∨ x * y ≤ al * bu ∨ x * y ≤ au * bl ∨ x * y ≤ au * bu := by
  rcases le_total 0 y with h | h
  · rcases le_total 0 au with k | k
    · right; right; right; nlinarith
    · right; right; left; nlinarith
  · rcases le_total 0 al with k | k
    · right; left; nlinarith
    · left; nlinarith

/-! ## Enclosure of the four operators -/

theorem box_of_finite {a : bounded_double}
    (hfin : a.min.isFinite = true ∧ a.max.isFinite = true) {x : ℝ} (hx : encloses a x) :
    ∃ al au : ℚ, a.min = fin al ∧ a.max = fin au ∧ (al : ℝ) ≤ x ∧ x ≤ (au : ℝ) := by
  obtain ⟨al, hal⟩ := Dbl.isFinite_iff.1 hfin.1
  obtain ⟨au, hau⟩ := Dbl.isFinite_iff.1 hfin.2
  refine ⟨al, au, hal, hau, ?_, ?_⟩
  · have h := hx.1; rw [hal] at h; exact h
  · have h := hx.2; rw [hau] at h; exact h

/-- Some corner product is at most `x * y`, and some corner product is at
least `x * y`, for `x`, `y` in the two finite boxes. -/
theorem times_corner_bounds {a b : bounded_double} {al au bl bu : ℚ}
    (hal : a.min = fin al) (hau : a.max = fin au) (hbl : b.min = fin bl)
    (hbu : b.max = fin bu) {x y : ℝ} (hx1 : (al : ℝ) ≤ x) (hx2 : x ≤ (au : ℝ))
    (hy1 : (bl : ℝ) ≤ y) (hy2 : y ≤ (bu : ℝ)) :
    (∃ p : ℚ, fin p ∈ corners times a b ∧ (p : ℝ) ≤ x * y) ∧
    (∃ q : ℚ, fin q ∈ corners times a b ∧ x * y ≤ (q : ℝ)) := by
  have hc : ∀ p ∈ [al * bl, al * bu, au * bl, au * bu], fin p ∈ corners times a b := by
    intro p hp
    simp only [List.mem_cons, List.mem_singleton, List.not_mem_nil, or_false] at hp
    rcases hp with rfl | rfl | rfl | rfl <;>
      simp [corners, hal, hau, hbl, hbu, times, Dbl.mul]
  constructor
  · rcases mul_corner_lower hx1 hx2 hy1 hy2 with h | h | h | h
    · exact ⟨al * bl, hc _ (by simp), by push_cast; exact h⟩
    · exact ⟨al * bu, hc _ (by simp), by push_cast; exact h⟩
    · exact ⟨au * bl, hc _ (by simp), by push_cast; exact h⟩
    · exact ⟨au * bu, hc _ (by simp), by push_cast; exact h⟩
  · rcases mul_corner_upper hx1 hx2 hy1 hy2 with h | h | h | h
    · exact ⟨al * bl, hc _ (by simp), by push_cast; exact h⟩
    · exact ⟨al * bu, hc _ (by simp), by push_cast; exact h⟩
    · exact ⟨au * bl, hc _ (by simp), by push_cast; exact h⟩
    · exact ⟨au * bu, hc _ (by simp), by push_cast; exact h⟩

theorem opMul_encloses {nextafter : Dbl → Dbl → Dbl} (hstep : StrictStep nextafter)
    {a b : bounded_double} (hafin : a.min.isFinite = true ∧ a.max.isFinite = true)
    (hbfin : b.min.isFinite = true ∧ b.max.isFinite = true)
    {x y : ℝ} (hx : encloses a x) (hy : encloses b y) :
    encloses (opMul nextafter a b) (x * y) := by
  obtain ⟨al, au, hal, hau, hx1, hx2⟩ := box_of_finite hafin hx
  obtain ⟨bl, bu, hbl, hbu, hy1, hy2⟩ := box_of_finite hbfin hy
  obtain ⟨⟨p, hp, hpr⟩, ⟨q, hq, hrq⟩⟩ :=
    times_corner_bounds hal hau hbl hbu hx1 hx2 hy1 hy2
  exact apply2_encloses hstep times a b hp hq hpr hrq

/-- With a divisor whose interval excludes zero, `operator/` takes its
`else` branch. -/
theorem opDiv_of_excludes (nextafter : Dbl → Dbl → Dbl) (a b : bounded_double)
    (h0 : Dbl.lt (fin 0) b.min = true ∨ Dbl.lt b.max (fin 0) = true) :
    opDiv nextafter a b = apply2 nextafter divide a b := by
  unfold opDiv
  have hc : (Dbl.le b.min (fin 0) && Dbl.ge b.max (fin 0)) = false := by
    rcases h0 with h | h
    · have := Dbl.not_le_of_lt h
      simp [this]
    · have := Dbl.not_le_of_lt h
      simp [Dbl.ge, this]
  simp [hc]

/-- The promotion of a finite scalar encloses it. -/
theorem assign_encloses {nextafter : Dbl → Dbl → Dbl} (hstep : StrictStep nextafter)
    (v : ℚ) : encloses (assign nextafter (fin v)) (v : ℝ) :=
  ⟨Dbl.leReal_of_lt_fin (hstep v).1 (le_refl _), Dbl.geReal_of_fin_lt (hstep v).2 (le_refl _)⟩

/-! ## Which stepped corner the loop returns -/

theorem stepMin_eq_or (d acc : Dbl) : stepMin d acc = d ∨ stepMin d acc = acc := by
  unfold stepMin
  split <;> simp

theorem stepMax_eq_or (u acc : Dbl) : stepMax u acc = u ∨ stepMax u acc = acc := by
  unfold stepMax
  split <;> simp

/-- With finite corner values the sentinel `+infinity` does not survive: the
returned lower bound is the step down of one of the corner values. -/
theorem apply2_min_mem {nextafter : Dbl → Dbl → Dbl} (hstep : StrictStep nextafter)
    (f : Dbl → Dbl → Dbl) (self rhs : bounded_double) {q0 : ℚ}
    (h0 : f self.max rhs.max = fin q0) :
    ∃ c ∈ corners f self rhs, (apply2 nextafter f self rhs).min = down nextafter c := by
  rw [apply2_min]
  have hs : stepMin (down nextafter (f self.max rhs.max)) pinf
      = down nextafter (f self.max rhs.max) := by
    have hlt : Dbl.lt (down nextafter (f self.max rhs.max)) pinf = true := by
      rw [h0]
      exact Dbl.lt_of_lt_of_le (hstep q0).1 (by simp [Dbl.le])
    simp [stepMin, hlt]
  rw [hs]
  simp only [corners, List.mem_cons, List.mem_singleton, List.not_mem_nil, or_false,
    exists_eq_or_imp, exists_eq_left]
  rcases stepMin_eq_or (down nextafter (f self.min rhs.min))
      (stepMin (down nextafter (f self.max rhs.min))
        (stepMin (down nextafter (f self.min rhs.max))
          (down nextafter (f self.max rhs.max)))) with h | h
  · rw [h]; simp
  · rw [h]
    rcases stepMin_eq_or (down nextafter (f self.max rhs.min))
        (stepMin (down nextafter (f self.min rhs.max))
          (down nextafter (f self.max rhs.max))) with h | h
    · rw [h]; simp
    · rw [h]
      rcases stepMin_eq_or (down nextafter (f self.min rhs.max))
          (down nextafter (f self.max rhs.max)) with h | h
      · rw [h]; simp
      · rw [h]; simp

/-- With finite corner values the sentinel `-infinity` does not survive: the
returned upper bound is the step up of one of the corner values. -/
theorem apply2_max_mem {nextafter : Dbl → Dbl → Dbl} (hstep : StrictStep nextafter)
    (f : Dbl → Dbl → Dbl) (self rhs : bounded_double) {q0 : ℚ}
    (h0 : f self.max rhs.max = fin q0) :
    ∃ c ∈ corners f self rhs, (apply2 nextafter f self rhs).max = up nextafter c := by
  rw [apply2_max]
  have hs : stepMax (up nextafter (f self.max rhs.max)) ninf
      = up nextafter (f self.max rhs.max) := by
    have hlt : Dbl.lt ninf (up nextafter (f self.max rhs.max)) = true := by
      rw [h0]
      exact Dbl.lt_of_le_of_lt (by simp [Dbl.le]) (hstep q0).2
    simp [stepMax, Dbl.gt, hlt]
  rw [hs]
  simp only [corners, List.mem_cons, List.mem_singleton, List.not_mem_nil, or_false,
    exists_eq_or_imp, exists_eq_left]
  rcases stepMax_eq_or (up nextafter (f self.min rhs.min))
      (stepMax (up nextafter (f self.max rhs.min))
        (stepMax (up nextafter (f self.min rhs.max))
          (up nextafter (f self.max rhs.max)))) with h | h
  · rw [h]; simp
  · rw [h]
    rcases stepMax_eq_or (up nextafter (f self.max rhs.min))
        (stepMax (up nextafter (f self.min rhs.max))
          (up nextafter (f self.max rhs.max))) with h | h
    · rw [h]; simp
    · rw [h]
      rcases stepMax_eq_or (up nextafter (f self.min rhs.max))
          (up nextafter (f self.max rhs.max)) with h | h
      · rw [h]; simp
      · rw [h]; simp

/-- With binary64 stepping, `-(-a)` for `a = (min 1, typical 3/2, max 2)`: the
upper bound is four steps above `2`.  (No product on the way to this bound
is rounded by the machine except the last, which the step up absorbs: the
machine value is the same.) -/
theorem neg_neg_one_two_max :
    (opNeg nextafter64 (opNeg nextafter64 (mk3 (fin 1) (fin (3 / 2)) (fin 2)))).max
      = fin (2 + 2 ^ (-49 : ℤ)) := by
  decide!

/-- With binary64 stepping, two steps up from `2`. -/
theorem two_steps_up_from_two :
    up nextafter64 (up nextafter64 (fin 2)) = fin (2 + 2 ^ (-50 : ℤ)) := by
  decide!

/-- Multiplying twice by `-1` gives the value back, also at the infinities and
at NaN. -/
theorem times_neg_one_twice (t : Dbl) : times (times t (fin (-1))) (fin (-1)) = t := by
  cases t with
  | nan => rfl
  | ninf =>
      have h1 : times ninf (fin (-1)) = pinf := by
        simp [times, Dbl.mul, Dbl.infOfSign]
      have h2 : times pinf (fin (-1)) = ninf := by
        simp [times, Dbl.mul, Dbl.infOfSign]
      rw [h1, h2]
  | fin q => simp [times, Dbl.mul]
  | pinf =>
      have h1 : times ninf (fin (-1)) = pinf := by
        simp [times, Dbl.mul, Dbl.infOfSign]
      have h2 : times pinf (fin (-1)) = ninf := by
        simp [times, Dbl.mul, Dbl.infOfSign]
      rw [h2, h1]

/-- Unary minus is `operator*` by the promoted `-1`. -/
theorem opNeg_eq_opMul (nextafter : Dbl → Dbl → Dbl) (a : bounded_double) :
    opNeg nextafter a = opMul nextafter a (assign nextafter (fin (-1))) := rfl

/-! ## Commutation of the loop updates -/

theorem bd_ext {x y : bounded_double} (h1 : x.typical = y.typical) (h2 : x.min = y.min)
    (h3 : x.max = y.max) : x = y := by
  cases x; cases y; simp_all

theorem stepMin_comm (x y acc : Dbl) :
    stepMin x (stepMin y acc) = stepMin y (stepMin x acc) := by
  cases x <;> cases y <;> cases acc <;> simp [stepMin, Dbl.lt] <;>
    (repeat' split) <;> simp_all <;> linarith

theorem stepMax_comm (x y acc : Dbl) :
    stepMax x (stepMax y acc) = stepMax y (stepMax x acc) := by
  cases x <;> cases y <;> cases acc <;> simp [stepMax, Dbl.gt, Dbl.lt] <;>
    (repeat' split) <;> simp_all <;> linarith

theorem plus_comm (x y : Dbl) : plus x y = plus y x := by
  cases x <;> cases y <;> simp [plus, Dbl.add, add_comm]

theorem times_comm (x y : Dbl) : times x y = times y x := by
  cases x <;> cases y <;> simp [times, Dbl.mul, mul_comm]

/-- Binary `apply` of a commutative `f` does not depend on which operand is
the receiver. -/
theorem apply2_comm (nextafter : Dbl → Dbl → Dbl) (f : Dbl → Dbl → Dbl)
    (hf : ∀ x y, f x y = f y x) (a b : bounded_double) :
    apply2 nextafter f a b = apply2 nextafter f b a := by
  apply bd_ext
  · exact hf _ _
  · rw [apply2_min, apply2_min, hf b.min a.min, hf b.max a.min, hf b.min a.max,
      hf b.max a.max]
    rw [stepMin_comm (down nextafter (f a.max b.min))]
  · rw [apply2_max, apply2_max, hf b.min a.min, hf b.max a.min, hf b.min a.max,
      hf b.max a.max]
    rw [stepMax_comm (up nextafter (f a.max b.min))]

/-! ## The binary64 model preserves the order -/

theorem ulpUp_eq (q : ℚ) : ulpUp q = 2 ^ (expOf q - 52) := rfl

/-- The grid of a lower binade contains the grid of a higher one: a multiple
of `ulpUp q` above `p` is at least the grid successor of `p`. -/
theorem grid_succ_le {p q r : ℚ} (hE : expOf p ≤ expOf q) (n : ℤ)
    (hr : r = n * ulpUp q) (hpr : p < r) :
    (⌊p / ulpUp p⌋ + 1) * ulpUp p ≤ r := by
  have hup := ulpUp_pos p
  obtain ⟨k, hk⟩ := Int.eq_ofNat_of_zero_le (sub_nonneg.2 hE)
  have huq : ulpUp q = (2 ^ k : ℤ) * ulpUp p := by
    rw [ulpUp_eq, ulpUp_eq]
    have : expOf q - 52 = (k : ℤ) + (expOf p - 52) := by linarith
    rw [this, zpow_add₀ (by norm_num : (2 : ℚ) ≠ 0)]
    push_cast
    rw [zpow_natCast]
  have hr2 : r = ((n * 2 ^ k : ℤ) : ℚ) * ulpUp p := by
    rw [hr, huq]; push_cast; ring
  have h1 : p / ulpUp p < ((n * 2 ^ k : ℤ) : ℚ) := by
    rw [div_lt_iff₀ hup, ← hr2]; exact hpr
  have h2 : ⌊p / ulpUp p⌋ + 1 ≤ n * 2 ^ k := by
    have := Int.floor_lt.2 h1
    linarith
  rw [hr2]
  apply mul_le_mul_of_nonneg_right _ hup.le
  exact_mod_cast h2

theorem lt_grid_succ (q : ℚ) : q < (⌊q / ulpUp q⌋ + 1) * ulpUp q := by
  have h := Int.lt_floor_add_one (q / ulpUp q)
  have hu := ulpUp_pos q
  calc q = q / ulpUp q * ulpUp q := by field_simp
    _ < (⌊q / ulpUp q⌋ + 1) * ulpUp q := by
        apply mul_lt_mul_of_pos_right _ hu
        exact_mod_cast h

theorem grid_succ_nonpos {p : ℚ} (hp : p < 0) : (⌊p / ulpUp p⌋ + 1) * ulpUp p ≤ 0 := by
  have h := grid_succ_le (p := p) (q := p) (r := 0) (le_refl _) 0 (by simp) hp
  exact h

theorem expOf_mono_nonneg {p q : ℚ} (hp : 0 ≤ p) (hpq : p ≤ q) : expOf p ≤ expOf q := by
  have hq : 0 ≤ q := hp.trans hpq
  simp only [expOf, hp, hq, if_true, expAbove]
  by_cases h0 : p = 0
  · simp only [h0, if_true]
    split
    · exact le_refl _
    · exact le_max_right _ _
  · have hp' : 0 < p := lt_of_le_of_ne hp (Ne.symm h0)
    have hq' : q ≠ 0 := ne_of_gt (lt_of_lt_of_le hp' hpq)
    simp only [h0, hq', if_false]
    exact max_le_max (Int.log_mono_right hp' hpq) (le_refl _)

/-- Leaving a negative `p` upwards from a higher binade than that of the
negative `q` above it, the grid successor of `p` is at most `q`. -/
theorem grid_succ_le_of_neg {p q : ℚ} (hq : q < 0) (hpq : p ≤ q) (hE : expOf q < expOf p) :
    (⌊p / ulpUp p⌋ + 1) * ulpUp p ≤ q := by
  have hp : p < 0 := lt_of_le_of_lt hpq hq
  have hp0 : ¬ (0 ≤ p) := not_le.2 hp
  have hq0 : ¬ (0 ≤ q) := not_le.2 hq
  have hnp : -p ≠ 0 := fun h => by linarith
  have hnq : -q ≠ 0 := fun h => by linarith
  have hEp : expOf p = Max.max (Int.clog 2 (-p) - 1) (-1022) := by
    simp only [expOf, hp0, if_false, expBelow, hnp]
  have hEq : expOf q = Max.max (Int.clog 2 (-q) - 1) (-1022) := by
    simp only [expOf, hq0, if_false, expBelow, hnq]
  have hq1022 : (-1022 : ℤ) ≤ expOf q := by rw [hEq]; exact le_max_right _ _
  have hEp2 : expOf p = Int.clog 2 (-p) - 1 := by
    rcases max_cases (Int.clog 2 (-p) - 1) (-1022 : ℤ) with ⟨h, _⟩ | ⟨h, _⟩
    · rw [hEp, h]
    · rw [hEp, h] at hE; linarith
  have hclq : Int.clog 2 (-q) ≤ expOf p := by
    have : Int.clog 2 (-q) - 1 ≤ expOf q := by rw [hEq]; exact le_max_left _ _
    linarith
  -- `2 ^ expOf p` separates `-q` from `-p`
  have h1 : (2 : ℚ) ^ expOf p < -p := by
    have := Int.zpow_pred_clog_lt_self (b := 2) (r := -p) (by norm_num) (by linarith)
    rw [hEp2]
    simpa using this
  have h2 : -q ≤ (2 : ℚ) ^ expOf p := by
    have a1 := Int.self_le_zpow_clog (b := 2) (by norm_num) (-q)
    have a2 : (2 : ℚ) ^ Int.clog 2 (-q) ≤ 2 ^ expOf p :=
      zpow_le_zpow_right₀ (by norm_num) hclq
    have a3 : -q ≤ (2 : ℚ) ^ Int.clog 2 (-q) := by simpa using a1
    exact a3.trans a2
  have h3 : -(2 : ℚ) ^ expOf p = ((-(2 ^ 52) : ℤ) : ℚ) * ulpUp p := by
    rw [ulpUp_eq]
    have : expOf p = 52 + (expOf p - 52) := by ring
    conv_lhs => rw [this, zpow_add₀ (by norm_num : (2 : ℚ) ≠ 0)]
    push_cast
    norm_num
  have h4 := grid_succ_le (p := p) (q := p) (le_refl _) (-(2 ^ 52)) h3 (by linarith)
  linarith

theorem grid_succ_mono {p q : ℚ} (hpq : p ≤ q) :
    (⌊p / ulpUp p⌋ + 1) * ulpUp p ≤ (⌊q / ulpUp q⌋ + 1) * ulpUp q := by
  by_cases hE : expOf p ≤ expOf q
  · exact grid_succ_le hE (⌊q / ulpUp q⌋ + 1) (by push_cast; ring)
      (lt_of_le_of_lt hpq (lt_grid_succ q))
  · have hE' : expOf q < expOf p := not_le.1 hE
    have hp : p < 0 := by
      by_contra h
      exact hE (expOf_mono_nonneg (not_lt.1 h) hpq)
    rcases lt_or_le q 0 with hq | hq
    · exact (grid_succ_le_of_neg hq hpq hE').trans (lt_grid_succ q).le
    · exact (grid_succ_nonpos hp).trans (hq.trans (lt_grid_succ q).le)

theorem succ64_mono {p q : ℚ} (hpq : p ≤ q) : Dbl.le (succ64 p) (succ64 q) = true := by
  unfold succ64
  by_cases h1 : DBL_MAX ≤ q
  · rw [if_pos h1]
    split
    · rfl
    · split <;> rfl
  · have h1p : ¬ DBL_MAX ≤ p := fun h => h1 (h.trans hpq)
    rw [if_neg h1, if_neg h1p]
    by_cases h2 : q < -DBL_MAX
    · have h2p : p < -DBL_MAX := lt_of_le_of_lt hpq h2
      rw [if_pos h2, if_pos h2p]
      simp [Dbl.le]
    · rw [if_neg h2]
      by_cases h2p : p < -DBL_MAX
      · rw [if_pos h2p, Dbl.le_fin_iff]
        exact (not_lt.1 h2).trans (lt_grid_succ q).le
      · rw [if_neg h2p, Dbl.le_fin_iff]
        exact grid_succ_mono hpq

theorem dbl_neg_le_neg {x y : Dbl} (h : Dbl.le x y = true) :
    Dbl.le (Dbl.neg y) (Dbl.neg x) = true := by
  cases x <;> cases y <;> simp_all [Dbl.le, Dbl.neg]

theorem pred64_mono {p q : ℚ} (hpq : p ≤ q) : Dbl.le (pred64 p) (pred64 q) = true := by
  unfold pred64
  exact dbl_neg_le_neg (succ64_mono (neg_le_neg_iff.2 hpq))

theorem nextafter64_mono : MonoStep nextafter64 := by
  intro p q hpq
  have hd : ∀ r : ℚ, down nextafter64 (fin r) = pred64 r := by
    intro r; simp [down, nextafter64, Dbl.lt]
  have hu : ∀ r : ℚ, up nextafter64 (fin r) = succ64 r := by
    intro r; simp [up, nextafter64, Dbl.lt]
  rw [hd, hd, hu, hu]
  exact ⟨pred64_mono hpq, succ64_mono hpq⟩

/-! ## The loop against the formula of the specification -/

theorem dbl_le_antisymm {x y : Dbl} (h : Dbl.le x y = true) (k : Dbl.le y x = true) :
    x = y := by
  cases x <;> cases y <;> simp_all [Dbl.le]
  exact le_antisymm h k

theorem dmin_spec {x y : Dbl} (hx : x ≠ nan) (hy : y ≠ nan) :
    (Dbl.min x y = x ∨ Dbl.min x y = y) ∧
    Dbl.le (Dbl.min x y) x = true ∧ Dbl.le (Dbl.min x y) y = true := by
  unfold Dbl.min
  split
  · next h => exact ⟨Or.inr rfl, Dbl.le_of_lt h, Dbl.le_rfl hy⟩
  · next h => exact ⟨Or.inl rfl, Dbl.le_rfl hx, Dbl.le_of_not_lt hy hx (by simpa using h)⟩

theorem dmax_spec {x y : Dbl} (hx : x ≠ nan) (hy : y ≠ nan) :
    (Dbl.max x y = x ∨ Dbl.max x y = y) ∧
    Dbl.le x (Dbl.max x y) = true ∧ Dbl.le y (Dbl.max x y) = true := by
  unfold Dbl.max
  split
  · next h => exact ⟨Or.inr rfl, Dbl.le_of_lt h, Dbl.le_rfl hy⟩
  · next h => exact ⟨Or.inl rfl, Dbl.le_rfl hx, Dbl.le_of_not_lt hx hy (by simpa using h)⟩

theorem ne_nan_of_isFinite {x : Dbl} (h : x.isFinite = true) : x ≠ nan := by
  cases x <;> simp_all [Dbl.isFinite]

/-- Among four doubles that are not NaN, the nested `std::min` is one of them
and is at most each of them. -/
theorem min4_spec {c1 c2 c3 c4 : Dbl} (h1 : c1 ≠ nan) (h2 : c2 ≠ nan) (h3 : c3 ≠ nan)
    (h4 : c4 ≠ nan) :
    Dbl.min (Dbl.min c1 c2) (Dbl.min c3 c4) ∈ [c1, c2, c3, c4] ∧
    ∀ c ∈ [c1, c2, c3, c4], Dbl.le (Dbl.min (Dbl.min c1 c2) (Dbl.min c3 c4)) c = true := by
  obtain ⟨e12, l1, l2⟩ := dmin_spec h1 h2
  obtain ⟨e34, l3, l4⟩ := dmin_spec h3 h4
  have n12 : Dbl.min c1 c2 ≠ nan := by rcases e12 with e | e <;> rw [e] <;> assumption
  have n34 : Dbl.min c3 c4 ≠ nan := by rcases e34 with e | e <;> rw [e] <;> assumption
  obtain ⟨e, la, lb⟩ := dmin_spec n12 n34
  constructor
  · simp only [List.mem_cons, List.mem_singleton, List.not_mem_nil, or_false]
    rcases e with e | e <;> rw [e]
    · rcases e12 with e' | e' <;> rw [e'] <;> simp
    · rcases e34 with e' | e' <;> rw [e'] <;> simp
  · intro c hc
    simp only [List.mem_cons, List.mem_singleton, List.not_mem_nil, or_false] at hc
    rcases hc with rfl | rfl | rfl | rfl
    · exact Dbl.le_trans la l1
    · exact Dbl.le_trans la l2
    · exact Dbl.le_trans lb l3
    · exact Dbl.le_trans lb l4

/-- Among four doubles that are not NaN, the nested `std::max` is one of them
and is at least each of them. -/
theorem max4_spec {c1 c2 c3 c4 : Dbl} (h1 : c1 ≠ nan) (h2 : c2 ≠ nan) (h3 : c3 ≠ nan)
    (h4 : c4 ≠ nan) :
    Dbl.max (Dbl.max c1 c2) (Dbl.max c3 c4) ∈ [c1, c2, c3, c4] ∧
    ∀ c ∈ [c1, c2, c3, c4], Dbl.le c (Dbl.max (Dbl.max c1 c2) (Dbl.max c3 c4)) = true := by
  obtain ⟨e12, l1, l2⟩ := dmax_spec h1 h2
  obtain ⟨e34, l3, l4⟩ := dmax_spec h3 h4
  have n12 : Dbl.max c1 c2 ≠ nan := by rcases e12 with e | e <;> rw [e] <;> assumption
  have n34 : Dbl.max c3 c4 ≠ nan := by rcases e34 with e | e <;> rw [e] <;> assumption
  obtain ⟨e, la, lb⟩ := dmax_spec n12 n34
  constructor
  · simp only [List.mem_cons, List.mem_singleton, List.not_mem_nil, or_false]
    rcases e with e | e <;> rw [e]
    · rcases e12 with e' | e' <;> rw [e'] <;> simp
    · rcases e34 with e' | e' <;> rw [e'] <;> simp
  · intro c hc
    simp only [List.mem_cons, List.mem_singleton, List.not_mem_nil, or_false] at hc
    rcases hc with rfl | rfl | rfl | rfl
    · exact Dbl.le_trans l1 la
    · exact Dbl.le_trans l2 la
    · exact Dbl.le_trans l3 lb
    · exact Dbl.le_trans l4 lb

theorem down_mono {nextafter : Dbl → Dbl → Dbl} (hmono : MonoStep nextafter) {x y : Dbl}
    (hx : x.isFinite = true) (hy : y.isFinite = true) (h : Dbl.le x y = true) :
    Dbl.le (down nextafter x) (down nextafter y) = true := by
  obtain ⟨p, rfl⟩ := Dbl.isFinite_iff.1 hx
  obtain ⟨q, rfl⟩ := Dbl.isFinite_iff.1 hy
  exact (hmono p q ((Dbl.le_fin_iff _ _).1 h)).1

theorem up_mono {nextafter : Dbl → Dbl → Dbl} (hmono : MonoStep nextafter) {x y : Dbl}
    (hx : x.isFinite = true) (hy : y.isFinite = true) (h : Dbl.le x y = true) :
    Dbl.le (up nextafter x) (up nextafter y) = true := by
  obtain ⟨p, rfl⟩ := Dbl.isFinite_iff.1 hx
  obtain ⟨q, rfl⟩ := Dbl.isFinite_iff.1 hy
  exact (hmono p q ((Dbl.le_fin_iff _ _).1 h)).2

/-- With finite corner values and order-preserving steps, the lower bound
the loop returns is the step down of a least corner value. -/
theorem apply2_min_eq_down {nextafter : Dbl → Dbl → Dbl} (hstep : StrictStep nextafter)
    (hmono : MonoStep nextafter) (f : Dbl → Dbl → Dbl) (a b : bounded_double)
    (hfin : ∀ c ∈ corners f a b, c.isFinite = true) {m : Dbl} (hm : m ∈ corners f a b)
    (hle : ∀ c ∈ corners f a b, Dbl.le m c = true) :
    (apply2 nextafter f a b).min = down nextafter m := by
  obtain ⟨q0, h0⟩ := Dbl.isFinite_iff.1 (hfin (f a.max b.max) (by simp [corners]))
  obtain ⟨c, hc, hres⟩ := apply2_min_mem hstep f a b h0
  obtain ⟨qm, hqm⟩ := Dbl.isFinite_iff.1 (hfin m hm)
  have hn : down nextafter m ≠ nan := by
    rw [hqm]; exact Dbl.ne_nan_of_lt_left (hstep qm).1
  have h1 := apply2_min_le_down nextafter f a b hm hn
  have h2 := down_mono hmono (hfin m hm) (hfin c hc) (hle c hc)
  rw [hres] at h1 ⊢
  exact dbl_le_antisymm h1 h2

/-- With finite corner values and order-preserving steps, the upper bound
the loop returns is the step up of a greatest corner value. -/
theorem apply2_max_eq_up {nextafter : Dbl → Dbl → Dbl} (hstep : StrictStep nextafter)
    (hmono : MonoStep nextafter) (f : Dbl → Dbl → Dbl) (a b : bounded_double)
    (hfin : ∀ c ∈ corners f a b, c.isFinite = true) {m : Dbl} (hm : m ∈ corners f a b)
    (hle : ∀ c ∈ corners f a b, Dbl.le c m = true) :
    (apply2 nextafter f a b).max = up nextafter m := by
  obtain ⟨q0, h0⟩ := Dbl.isFinite_iff.1 (hfin (f a.max b.max) (by simp [corners]))
  obtain ⟨c, hc, hres⟩ := apply2_max_mem hstep f a b h0
  obtain ⟨qm, hqm⟩ := Dbl.isFinite_iff.1 (hfin m hm)
  have hn : up nextafter m ≠ nan := by
    rw [hqm]; exact Dbl.ne_nan_of_lt_right (hstep qm).2
  have h1 := apply2_max_ge_up nextafter f a b hm hn
  have h2 := up_mono hmono (hfin c hc) (hfin m hm) (hle c hc)
  rw [hres] at h1 ⊢
  exact dbl_le_antisymm h2 h1

/-! ## Negation, reciprocal and the arithmetic of doubles -/

namespace Dbl

theorem neg_neg (x : Dbl) : neg (neg x) = x := by
  cases x <;> simp [neg]

theorem mul_swap (u v : Dbl) : mul u v = mul v u := by
  cases u <;> cases v <;> simp [mul, Rat.mul_comm]

theorem infOfSign_neg {q : ℚ} (h : q < 0) : infOfSign q = ninf := by
  simp [infOfSign, h]

theorem infOfSign_pos {q : ℚ} (h : 0 < q) : infOfSign q = pinf := by
  simp [infOfSign, h.le]

theorem mul_neg_left (u v : Dbl) : mul (neg u) v = neg (mul u v) := by
  cases u <;> cases v <;> simp [mul, neg]
  all_goals
    rename_i q
    rcases lt_trichotomy q 0 with h | h | h
    · simp [infOfSign_neg h, infOfSign_pos (neg_pos.2 h), h.ne, neg]
    · simp [h]
    · simp [infOfSign_pos h, infOfSign_neg (neg_neg_of_pos h), h.ne', neg]

theorem mul_neg_right (u v : Dbl) : mul u (neg v) = neg (mul u v) := by
  rw [mul_swap, mul_neg_left, mul_swap]

theorem leReal_neg {c : Dbl} {r : ℝ} : (neg c).leReal (-r) ↔ c.geReal r := by
  cases c <;> simp [neg, leReal, geReal]

theorem geReal_neg {c : Dbl} {r : ℝ} : (neg c).geReal (-r) ↔ c.leReal r := by
  cases c <;> simp [neg, leReal, geReal]

theorem div_eq_mul_recip (u v : Dbl) (hv : v ≠ nan) (hv0 : v ≠ fin 0) :
    div u v = mul u (recip v) := by
  cases u <;> cases v <;> simp_all [div, mul, recip, div_eq_mul_inv]
  all_goals
    rename_i q
    rcases lt_or_gt_of_ne hv0 with h | h
    · simp [infOfSign_neg h, infOfSign_neg (inv_lt_zero.2 h), infOfSign_pos (neg_pos.2 h),
        infOfSign_pos (neg_pos.2 (inv_lt_zero.2 h)), neg]
    · simp [infOfSign_pos h, infOfSign_pos (inv_pos.2 h), infOfSign_neg (neg_neg_of_pos h),
        infOfSign_neg (neg_neg_of_pos (inv_pos.2 h)), neg]

end Dbl

/-! ## Extremes of a product over a box with infinite sides -/

namespace Dbl

/-- For a positive second factor, one of the four corner products is at most
`x * y`, unless all four are NaN. -/
theorem mul_lower_pos {l1 u1 l2 u2 : Dbl} {x y : ℝ}
    (h1 : l1.leReal x) (h2 : u1.geReal x) (h3 : l2.leReal y) (h4 : u2.geReal y) (hy : 0 < y)
    (hn : mul u1 u2 ≠ nan ∨ mul l1 u2 ≠ nan ∨ mul u1 l2 ≠ nan ∨ mul l1 l2 ≠ nan) :
    (mul u1 u2).leReal (x * y) ∨ (mul l1 u2).leReal (x * y) ∨
      (mul u1 l2).leReal (x * y) ∨ (mul l1 l2).leReal (x * y) := by
  cases l1 with
  | nan => exact absurd h1 (by simp [leReal])
  | pinf => exact absurd h1 (by simp [leReal])
  | ninf =>
      right; left
      cases u2 with
      | nan => exact absurd h4 (by simp [geReal])
      | ninf => exact absurd h4 (by simp [geReal])
      | pinf => simp [mul, leReal]
      | fin bu =>
          have hbu : (0 : ℝ) < bu := hy.trans_le h4
          have hbu' : (0 : ℚ) < bu := by exact_mod_cast hbu
          simp [mul, hbu'.ne', infOfSign_neg (neg_neg_of_pos hbu'), leReal]
  | fin al =>
      have hx1 : (al : ℝ) ≤ x := h1
      by_cases hal : al < 0
      · right; left
        have halR : (al : ℝ) < 0 := by exact_mod_cast hal
        cases u2 with
        | nan => exact absurd h4 (by simp [geReal])
        | ninf => exact absurd h4 (by simp [geReal])
        | pinf => simp [mul, hal.ne, infOfSign_neg hal, leReal]
        | fin bu =>
            have hy2 : y ≤ (bu : ℝ) := h4
            simp only [mul, leReal]
            push_cast
            nlinarith
      · have hal0 : 0 ≤ al := not_lt.1 hal
        have halR : (0 : ℝ) ≤ al := by exact_mod_cast hal0
        cases l2 with
        | nan => exact absurd h3 (by simp [leReal])
        | pinf => exact absurd h3 (by simp [leReal])
        | fin bl =>
            have hy1 : (bl : ℝ) ≤ y := h3
            right; right; right
            simp only [mul, leReal]
            push_cast
            nlinarith
        | ninf =>
            rcases eq_or_lt_of_le hal0 with h0 | hpos
            · -- the lower left corner is `0 * -infinity`
              subst h0
              have hxy : (0 : ℝ) ≤ x * y := mul_nonneg (by simpa using hx1) hy.le
              cases u2 with
              | nan => exact absurd h4 (by simp [geReal])
              | ninf => exact absurd h4 (by simp [geReal])
              | fin bu =>
                  right; left
                  simpa [mul, leReal] using hxy
              | pinf =>
                  cases u1 with
                  | nan => exact absurd h2 (by simp [geReal])
                  | ninf => exact absurd h2 (by simp [geReal])
                  | pinf => right; right; left; simp [mul, leReal]
                  | fin au =>
                      have hx2 : x ≤ (au : ℝ) := h2
                      have hx0 : (0 : ℝ) ≤ x := by simpa using hx1
                      have hau0 : (0 : ℝ) ≤ au := hx0.trans hx2
                      have hau0' : (0 : ℚ) ≤ au := by exact_mod_cast hau0
                      rcases eq_or_lt_of_le hau0' with h0 | hpos
                      · subst h0
                        simp [mul] at hn
                      · right; right; left
                        simp [mul, hpos.ne', infOfSign_neg (neg_neg_of_pos hpos), leReal]
            · right; right; right
              simp [mul, hpos.ne', infOfSign_neg (neg_neg_of_pos hpos), leReal]

/-- For a negative second factor, one of the four corner products is at most
`x * y`, unless all four are NaN. -/
theorem mul_lower_neg {l1 u1 l2 u2 : Dbl} {x y : ℝ}
    (h1 : l1.leReal x) (h2 : u1.geReal x) (h3 : l2.leReal y) (h4 : u2.geReal y) (hy : y < 0)
    (hn : mul u1 u2 ≠ nan ∨ mul l1 u2 ≠ nan ∨ mul u1 l2 ≠ nan ∨ mul l1 l2 ≠ nan) :
    (mul u1 u2).leReal (x * y) ∨ (mul l1 u2).leReal (x * y) ∨
      (mul u1 l2).leReal (x * y) ∨ (mul l1 l2).leReal (x * y) := by
  have e : ∀ u v : Dbl, mul (neg u) (neg v) = mul u v := by
    intro u v
    rw [mul_neg_left, mul_neg_right, neg_neg]
  have hn' : mul (neg l1) (neg l2) ≠ nan ∨ mul (neg u1) (neg l2) ≠ nan ∨
      mul (neg l1) (neg u2) ≠ nan ∨ mul (neg u1) (neg u2) ≠ nan := by
    rw [e, e, e, e]
    rcases hn with h | h | h | h
    · exact Or.inr (Or.inr (Or.inr h))
    · exact Or.inr (Or.inr (Or.inl h))
    · exact Or.inr (Or.inl h)
    · exact Or.inl h
  have h := @mul_lower_pos (neg u1) (neg l1) (neg u2) (neg l2) (-x) (-y)
    (leReal_neg.2 h2) (geReal_neg.2 h1) (leReal_neg.2 h4)
    (geReal_neg.2 h3) (neg_pos.2 hy) hn'
  rw [e, e, e, e, neg_mul_neg] at h
  rcases h with h | h | h | h
  · exact Or.inr (Or.inr (Or.inr h))
  · exact Or.inr (Or.inr (Or.inl h))
  · exact Or.inr (Or.inl h)
  · exact Or.inl h

/-- At `x = 0`, `y = 0`, one of the four corner products is at most zero,
unless all four are NaN. -/
theorem mul_lower_zero {l1 u1 l2 u2 : Dbl}
    (h1 : l1.leReal 0) (h2 : u1.geReal 0) (h3 : l2.leReal 0) (h4 : u2.geReal 0)
    (hn : mul u1 u2 ≠ nan ∨ mul l1 u2 ≠ nan ∨ mul u1 l2 ≠ nan ∨ mul l1 l2 ≠ nan) :
    (mul u1 u2).leReal 0 ∨ (mul l1 u2).leReal 0 ∨
      (mul u1 l2).leReal 0 ∨ (mul l1 l2).leReal 0 := by
  -- the sign of each bound
  have s1 : l1 = ninf ∨ l1 = fin 0 ∨ ∃ q : ℚ, q < 0 ∧ l1 = fin q := by
    cases l1 with
    | nan => exact absurd h1 (by simp [leReal])
    | pinf => exact absurd h1 (by simp [leReal])
    | ninf => exact Or.inl rfl
    | fin q =>
        have hq : q ≤ 0 := by
          have : (q : ℝ) ≤ 0 := h1
          exact_mod_cast this
        rcases eq_or_lt_of_le hq with h | h
        · exact Or.inr (Or.inl (by rw [h]))
        · exact Or.inr (Or.inr ⟨q, h, rfl⟩)
  have s3 : l2 = ninf ∨ l2 = fin 0 ∨ ∃ q : ℚ, q < 0 ∧ l2 = fin q := by
    cases l2 with
    | nan => exact absurd h3 (by simp [leReal])
    | pinf => exact absurd h3 (by simp [leReal])
    | ninf => exact Or.inl rfl
    | fin q =>
        have hq : q ≤ 0 := by
          have : (q : ℝ) ≤ 0 := h3
          exact_mod_cast this
        rcases eq_or_lt_of_le hq with h | h
        · exact Or.inr (Or.inl (by rw [h]))
        · exact Or.inr (Or.inr ⟨q, h, rfl⟩)
  have s2 : u1 = pinf ∨ u1 = fin 0 ∨ ∃ q : ℚ, 0 < q ∧ u1 = fin q := by
    cases u1 with
    | nan => exact absurd h2 (by simp [geReal])
    | ninf => exact absurd h2 (by simp [geReal])
    | pinf => exact Or.inl rfl
    | fin q =>
        have hq : 0 ≤ q := by
          have : (0 : ℝ) ≤ q := h2
          exact_mod_cast this
        rcases eq_or_lt_of_le hq with h | h
        · exact Or.inr (Or.inl (by rw [← h]))
        · exact Or.inr (Or.inr ⟨q, h, rfl⟩)
  have s4 : u2 = pinf ∨ u2 = fin 0 ∨ ∃ q : ℚ, 0 < q ∧ u2 = fin q := by
    cases u2 with
    | nan => exact absurd h4 (by simp [geReal])
    | ninf => exact absurd h4 (by simp [geReal])
    | pinf => exact Or.inl rfl
    | fin q =>
        have hq : 0 ≤ q := by
          have : (0 : ℝ) ≤ q := h4
          exact_mod_cast this
        rcases eq_or_lt_of_le hq with h | h
        · exact Or.inr (Or.inl (by rw [← h]))
        · exact Or.inr (Or.inr ⟨q, h, rfl⟩)
  have key : ∀ p q : ℚ, p < 0 → 0 < q → (p : ℝ) * (q : ℝ) ≤ 0 ∧ (q : ℝ) * (p : ℝ) ≤ 0 := by
    intro p q hp hq
    have hp' : (p : ℝ) < 0 := by exact_mod_cast hp
    have hq' : (0 : ℝ) < q := by exact_mod_cast hq
    exact ⟨(mul_neg_of_neg_of_pos hp' hq').le, (mul_neg_of_pos_of_neg hq' hp').le⟩
  rcases s1 with rfl | rfl | ⟨al, hal, rfl⟩ <;>
  rcases s2 with rfl | rfl | ⟨au, hau, rfl⟩ <;>
  rcases s3 with rfl | rfl | ⟨bl, hbl, rfl⟩ <;>
  rcases s4 with rfl | rfl | ⟨bu, hbu, rfl⟩ <;>
  first
    | (exfalso; simp [mul] at hn; done)
    | simp [mul, leReal, infOfSign_neg, infOfSign_pos, *, ne_of_lt, ne_of_gt, key]

/-- One of the four corner products is at most `x * y`, for `x`, `y` in a box
whose sides may be infinite, unless all four corner products are NaN. -/
theorem mul_lower {l1 u1 l2 u2 : Dbl} {x y : ℝ}
    (h1 : l1.leReal x) (h2 : u1.geReal x) (h3 : l2.leReal y) (h4 : u2.geReal y)
    (hn : mul u1 u2 ≠ nan ∨ mul l1 u2 ≠ nan ∨ mul u1 l2 ≠ nan ∨ mul l1 l2 ≠ nan) :
    (mul u1 u2).leReal (x * y) ∨ (mul l1 u2).leReal (x * y) ∨
      (mul u1 l2).leReal (x * y) ∨ (mul l1 l2).leReal (x * y) := by
  rcases lt_trichotomy y 0 with hy | hy | hy
  · exact mul_lower_neg h1 h2 h3 h4 hy hn
  · have hn' : mul u2 u1 ≠ nan ∨ mul l2 u1 ≠ nan ∨ mul u2 l1 ≠ nan ∨ mul l2 l1 ≠ nan := by
      rw [mul_swap u2 u1, mul_swap l2 u1, mul_swap u2 l1, mul_swap l2 l1]
      rcases hn with h | h | h | h
      · exact Or.inl h
      · exact Or.inr (Or.inr (Or.inl h))
      · exact Or.inr (Or.inl h)
      · exact Or.inr (Or.inr (Or.inr h))
    have back : ((mul u2 u1).leReal (y * x) ∨ (mul l2 u1).leReal (y * x) ∨
        (mul u2 l1).leReal (y * x) ∨ (mul l2 l1).leReal (y * x)) →
        ((mul u1 u2).leReal (x * y) ∨ (mul l1 u2).leReal (x * y) ∨
          (mul u1 l2).leReal (x * y) ∨ (mul l1 l2).leReal (x * y)) := by
      intro h
      rw [mul_swap u2 u1, mul_swap l2 u1, mul_swap u2 l1, mul_swap l2 l1,
        mul_comm y x] at h
      rcases h with h | h | h | h
      · exact Or.inl h
      · exact Or.inr (Or.inr (Or.inl h))
      · exact Or.inr (Or.inl h)
      · exact Or.inr (Or.inr (Or.inr h))
    rcases lt_trichotomy x 0 with hx | hx | hx
    · exact back (mul_lower_neg h3 h4 h1 h2 hx hn')
    · subst hx
      subst hy
      have h := mul_lower_zero h1 h2 h3 h4 hn
      simpa using h
    · exact back (mul_lower_pos h3 h4 h1 h2 hx hn')
  · exact mul_lower_pos h1 h2 h3 h4 hy hn

/-- One of the four corner products is at least `x * y`, for `x`, `y` in a
box whose sides may be infinite, unless all four corner products are NaN. -/
theorem mul_upper {l1 u1 l2 u2 : Dbl} {x y : ℝ}
    (h1 : l1.leReal x) (h2 : u1.geReal x) (h3 : l2.leReal y) (h4 : u2.geReal y)
    (hn : mul u1 u2 ≠ nan ∨ mul l1 u2 ≠ nan ∨ mul u1 l2 ≠ nan ∨ mul l1 l2 ≠ nan) :
    (mul u1 u2).geReal (x * y) ∨ (mul l1 u2).geReal (x * y) ∨
      (mul u1 l2).geReal (x * y) ∨ (mul l1 l2).geReal (x * y) := by
  have e : ∀ c : Dbl, c ≠ nan → neg c ≠ nan := by
    intro c; cases c <;> simp [neg]
  have hn' : mul (neg l1) u2 ≠ nan ∨ mul (neg u1) u2 ≠ nan ∨ mul (neg l1) l2 ≠ nan ∨
      mul (neg u1) l2 ≠ nan := by
    simp only [mul_neg_left]
    rcases hn with h | h | h | h
    · exact Or.inr (Or.inl (e _ h))
    · exact Or.inl (e _ h)
    · exact Or.inr (Or.inr (Or.inr (e _ h)))
    · exact Or.inr (Or.inr (Or.inl (e _ h)))
  have h := @mul_lower (neg u1) (neg l1) l2 u2 (-x) y
    (leReal_neg.2 h2) (geReal_neg.2 h1) h3 h4 hn'
  simp only [mul_neg_left, neg_mul, leReal_neg] at h
  rcases h with h | h | h | h
  · exact Or.inr (Or.inl h)
  · exact Or.inl h
  · exact Or.inr (Or.inr (Or.inr h))
  · exact Or.inr (Or.inr (Or.inl h))

/-- Bounds of the reciprocal of a real between two doubles of one sign. -/
theorem recip_bounds {l2 u2 : Dbl} {y : ℝ} (h3 : l2.leReal y) (h4 : u2.geReal y)
    (h0 : lt (fin 0) l2 = true ∨ lt u2 (fin 0) = true) :
    (recip u2).leReal y⁻¹ ∧ (recip l2).geReal y⁻¹ ∧ recip l2 ≠ nan ∧ recip u2 ≠ nan ∧
      (recip l2 ≠ fin 0 ∨ recip u2 ≠ fin 0) ∧ l2 ≠ nan ∧ l2 ≠ fin 0 ∧ u2 ≠ nan ∧ u2 ≠ fin 0 := by
  rcases h0 with h | h
  · -- a positive divisor
    cases l2 with
    | nan => exact absurd h3 (by simp [leReal])
    | pinf => exact absurd h3 (by simp [leReal])
    | ninf => exact absurd h (by simp [lt])
    | fin bl =>
        have hbl : 0 < bl := by simpa [lt] using h
        have hblR : (0 : ℝ) < bl := by exact_mod_cast hbl
        have hy1 : (bl : ℝ) ≤ y := h3
        have hy : 0 < y := hblR.trans_le hy1
        cases u2 with
        | nan => exact absurd h4 (by simp [geReal])
        | ninf => exact absurd h4 (by simp [geReal])
        | pinf =>
            refine ⟨?_, ?_, by simp [recip], by simp [recip], Or.inl ?_, by simp, ?_, by simp,
              by simp⟩
            · simpa [recip, leReal] using hy.le
            · simp only [recip, geReal]; push_cast; exact inv_anti₀ hblR hy1
            · simp [recip, hbl.ne']
            · simp [hbl.ne']
        | fin bu =>
            have hy2 : y ≤ (bu : ℝ) := h4
            have hbu : (0 : ℝ) < bu := hy.trans_le hy2
            have hbu' : (0 : ℚ) < bu := by exact_mod_cast hbu
            refine ⟨?_, ?_, by simp [recip], by simp [recip], Or.inl ?_, by simp, ?_, by simp,
              ?_⟩
            · simp only [recip, leReal]; push_cast; exact inv_anti₀ hy hy2
            · simp only [recip, geReal]; push_cast; exact inv_anti₀ hblR hy1
            · simp [recip, hbl.ne']
            · simp [hbl.ne']
            · simp [hbu'.ne']
  · -- a negative divisor
    cases u2 with
    | nan => exact absurd h4 (by simp [geReal])
    | ninf => exact absurd h4 (by simp [geReal])
    | pinf => exact absurd h (by simp [lt])
    | fin bu =>
        have hbu : bu < 0 := by simpa [lt] using h
        have hbuR : (bu : ℝ) < 0 := by exact_mod_cast hbu
        have hy2 : y ≤ (bu : ℝ) := h4
        have hy : y < 0 := hy2.trans_lt hbuR
        cases l2 with
        | nan => exact absurd h3 (by simp [leReal])
        | pinf => exact absurd h3 (by simp [leReal])
        | ninf =>
            refine ⟨?_, ?_, by simp [recip], by simp [recip], Or.inr ?_, by simp, by simp,
              by simp, ?_⟩
            · simp only [recip, leReal]; push_cast; exact (inv_le_inv_of_neg hbuR hy).2 hy2
            · simpa [recip, geReal] using hy.le
            · simp [recip, hbu.ne]
            · simp [hbu.ne]
        | fin bl =>
            have hy1 : (bl : ℝ) ≤ y := h3
            have hbl : (bl : ℝ) < 0 := hy1.trans_lt hy
            have hbl' : bl < 0 := by exact_mod_cast hbl
            refine ⟨?_, ?_, by simp [recip], by simp [recip], Or.inr ?_, by simp, ?_, by simp,
              ?_⟩
            · simp only [recip, leReal]; push_cast; exact (inv_le_inv_of_neg hbuR hy).2 hy2
            · simp only [recip, geReal]; push_cast; exact (inv_le_inv_of_neg hy hbl).2 hy1
            · simp [recip, hbu.ne]
            · simp [hbl'.ne]
            · simp [hbu.ne]

theorem mul_ne_nan_of_ne_zero {u : Dbl} {q : ℚ} (hu : u ≠ nan) (hq : fin q ≠ fin 0) :
    mul u (fin q) ≠ nan := by
  have hq0 : q ≠ 0 := fun h => hq (by rw [h])
  cases u with
  | nan => exact absurd rfl hu
  | fin a => simp [mul]
  | ninf =>
      rcases lt_or_gt_of_ne hq0 with h | h
      · simp [mul, hq0, infOfSign_pos (neg_pos.2 h)]
      · simp [mul, hq0, infOfSign_neg (neg_neg_of_pos h)]
  | pinf =>
      rcases lt_or_gt_of_ne hq0 with h | h
      · simp [mul, hq0, infOfSign_neg h]
      · simp [mul, hq0, infOfSign_pos h]

/-- One of the four corner quotients is at most `x / y` and one is at least
`x / y`, for `x`, `y` in a box whose sides may be infinite and whose second
side excludes zero. -/
theorem div_bounds {l1 u1 l2 u2 : Dbl} {x y : ℝ}
    (h1 : l1.leReal x) (h2 : u1.geReal x) (h3 : l2.leReal y) (h4 : u2.geReal y)
    (h0 : lt (fin 0) l2 = true ∨ lt u2 (fin 0) = true) :
    ((div u1 u2).leReal (x / y) ∨ (div l1 u2).leReal (x / y) ∨
      (div u1 l2).leReal (x / y) ∨ (div l1 l2).leReal (x / y)) ∧
    ((div u1 u2).geReal (x / y) ∨ (div l1 u2).geReal (x / y) ∨
      (div u1 l2).geReal (x / y) ∨ (div l1 l2).geReal (x / y)) := by
  obtain ⟨r1, r2, n1, n2, n3, a1, a2, a3, a4⟩ := recip_bounds h3 h4 h0
  have hl1 : l1 ≠ nan := by
    intro h; rw [h] at h1; exact h1
  have hn : mul u1 (recip l2) ≠ nan ∨ mul l1 (recip l2) ≠ nan ∨
      mul u1 (recip u2) ≠ nan ∨ mul l1 (recip u2) ≠ nan := by
    rcases n3 with h | h
    · obtain ⟨q, hq⟩ : ∃ q, recip l2 = fin q := by
        cases l2 <;> simp_all [recip]
      rw [hq] at h ⊢
      exact Or.inr (Or.inl (mul_ne_nan_of_ne_zero hl1 h))
    · obtain ⟨q, hq⟩ : ∃ q, recip u2 = fin q := by
        cases u2 <;> simp_all [recip]
      rw [hq] at h ⊢
      exact Or.inr (Or.inr (Or.inr (mul_ne_nan_of_ne_zero hl1 h)))
  rw [div_eq_mul_recip u1 u2 a3 a4, div_eq_mul_recip l1 u2 a3 a4,
    div_eq_mul_recip u1 l2 a1 a2, div_eq_mul_recip l1 l2 a1 a2, div_eq_mul_inv]
  have hL := mul_lower h1 h2 r1 r2 hn
  have hU := mul_upper h1 h2 r1 r2 hn
  constructor
  · rcases hL with h | h | h | h
    · exact Or.inr (Or.inr (Or.inl h))
    · exact Or.inr (Or.inr (Or.inr h))
    · exact Or.inl h
    · exact Or.inr (Or.inl h)
  · rcases hU with h | h | h | h
    · exact Or.inr (Or.inr (Or.inl h))
    · exact Or.inr (Or.inr (Or.inr h))
    · exact Or.inl h
    · exact Or.inr (Or.inl h)

/-- The corner sum `l1 + l2` is at most `x + y`, the corner sum `u1 + u2` at
least, also for infinite sides. -/
theorem add_bounds {l1 u1 l2 u2 : Dbl} {x y : ℝ}
    (h1 : l1.leReal x) (h2 : u1.geReal x) (h3 : l2.leReal y) (h4 : u2.geReal y) :
    (add l1 l2).leReal (x + y) ∧ (add u1 u2).geReal (x + y) := by
  constructor
  · cases l1 <;> cases l2 <;> simp_all [add, leReal]
    linarith
  · cases u1 <;> cases u2 <;> simp_all [add, geReal]
    linarith

/-- The corner difference `l1 - u2` is at most `x - y`, the corner difference
`u1 - l2` at least, also for infinite sides. -/
theorem sub_bounds {l1 u1 l2 u2 : Dbl} {x y : ℝ}
    (h1 : l1.leReal x) (h2 : u1.geReal x) (h3 : l2.leReal y) (h4 : u2.geReal y) :
    (sub l1 u2).leReal (x - y) ∧ (sub u1 l2).geReal (x - y) := by
  constructor
  · cases l1 <;> cases u2 <;> simp_all [sub, leReal, geReal]
    linarith
  · cases u1 <;> cases l2 <;> simp_all [sub, leReal, geReal]
    linarith

/-- A sum that is not NaN lies between corner sums of every box that holds
its terms, also at the infinities. -/
theorem add_corner {l1 u1 l2 u2 u v : Dbl} (h1 : le l1 u = true) (h2 : le u u1 = true)
    (h3 : le l2 v = true) (h4 : le v u2 = true) (hn : add u v ≠ nan) :
    (le (add l1 l2) (add u v) = true ∨ le (add u1 u2) (add u v) = true) ∧
    (le (add u v) (add u1 u2) = true ∨ le (add u v) (add l1 l2) = true) := by
  cases u <;> cases v <;> simp [add] at hn <;>
  cases l1 <;> simp [le] at h1 <;> cases u1 <;> simp [le] at h2 <;>
  cases l2 <;> simp [le] at h3 <;> cases u2 <;> simp [le] at h4 <;>
  simp [add, le] <;>
  first
    | linarith
    | (constructor <;> left <;> linarith)

/-- A difference that is not NaN lies between corner differences of every
box that holds its terms, also at the infinities. -/
theorem sub_corner {l1 u1 l2 u2 u v : Dbl} (h1 : le l1 u = true) (h2 : le u u1 = true)
    (h3 : le l2 v = true) (h4 : le v u2 = true) (hn : sub u v ≠ nan) :
    (le (sub l1 u2) (sub u v) = true ∨ le (sub u1 l2) (sub u v) = true) ∧
    (le (sub u v) (sub u1 l2) = true ∨ le (sub u v) (sub l1 u2) = true) := by
  cases u <;> cases v <;> simp [sub] at hn <;>
  cases l1 <;> simp [le] at h1 <;> cases u1 <;> simp [le] at h2 <;>
  cases l2 <;> simp [le] at h3 <;> cases u2 <;> simp [le] at h4 <;>
  simp [sub, le] <;>
  first
    | linarith
    | (constructor <;> left <;> linarith)

theorem sign_cases (w : Dbl) :
    w = nan ∨ lt w (fin 0) = true ∨ w = fin 0 ∨ lt (fin 0) w = true := by
  cases w with
  | nan => exact Or.inl rfl
  | ninf => exact Or.inr (Or.inl rfl)
  | pinf => exact Or.inr (Or.inr (Or.inr rfl))
  | fin q =>
      rcases lt_trichotomy q 0 with h | h | h
      · exact Or.inr (Or.inl (by simpa [lt] using h))
      · exact Or.inr (Or.inr (Or.inl (by rw [h])))
      · exact Or.inr (Or.inr (Or.inr (by simpa [lt] using h)))

theorem mul_inf_pos {w : Dbl} (hw : lt (fin 0) w = true) :
    mul ninf w = ninf ∧ mul pinf w = pinf ∧ mul w ninf = ninf ∧ mul w pinf = pinf := by
  cases w with
  | nan => exact absurd hw (by simp [lt])
  | ninf => exact absurd hw (by simp [lt])
  | pinf => simp [mul]
  | fin q =>
      have h : 0 < q := by simpa [lt] using hw
      simp [mul, h.ne', infOfSign_pos h, infOfSign_neg (neg_neg_of_pos h)]

theorem mul_inf_neg {w : Dbl} (hw : lt w (fin 0) = true) :
    mul ninf w = pinf ∧ mul pinf w = ninf ∧ mul w ninf = pinf ∧ mul w pinf = ninf := by
  cases w with
  | nan => exact absurd hw (by simp [lt])
  | pinf => exact absurd hw (by simp [lt])
  | ninf => simp [mul]
  | fin q =>
      have h : q < 0 := by simpa [lt] using hw
      simp [mul, h.ne, infOfSign_neg h, infOfSign_pos (neg_pos.2 h)]

theorem eq_ninf_of_le {x : Dbl} (h : le x ninf = true) : x = ninf := by
  cases x <;> simp_all [le]

theorem eq_pinf_of_le {x : Dbl} (h : le pinf x = true) : x = pinf := by
  cases x <;> simp_all [le]

/-- A product with an infinite factor that is not NaN is the product at a
corner of every box that holds its factors. -/
theorem mul_edge {l1 u1 l2 u2 u v : Dbl} (h1 : le l1 u = true) (h2 : le u u1 = true)
    (h3 : le l2 v = true) (h4 : le v u2 = true) (hn : mul u v ≠ nan)
    (hinf : u.isFinite = false ∨ v.isFinite = false) :
    mul u1 u2 = mul u v ∨ mul l1 u2 = mul u v ∨ mul u1 l2 = mul u v ∨ mul l1 l2 = mul u v := by
  have hu : u ≠ nan := ne_nan_of_le_left h2
  have hv : v ≠ nan := ne_nan_of_le_left h4
  -- an infinite first factor
  have one : ∀ {l1 u1 l2 u2 u v : Dbl}, le l1 u = true → le u u1 = true →
      le l2 v = true → le v u2 = true → mul u v ≠ nan → v ≠ nan → (u = ninf ∨ u = pinf) →
      mul u1 u2 = mul u v ∨ mul l1 u2 = mul u v ∨ mul u1 l2 = mul u v ∨
        mul l1 l2 = mul u v := by
    intro l1 u1 l2 u2 u v h1 h2 h3 h4 hn hv hu
    rcases sign_cases v with h | h | h | h
    · exact absurd h hv
    · have hl2 : lt l2 (fin 0) = true := lt_of_le_of_lt h3 h
      rcases hu with rfl | rfl
      · have := eq_ninf_of_le h1
        subst this
        exact Or.inr (Or.inr (Or.inr (by rw [(mul_inf_neg h).1, (mul_inf_neg hl2).1])))
      · have := eq_pinf_of_le h2
        subst this
        exact Or.inr (Or.inr (Or.inl (by rw [(mul_inf_neg h).2.1, (mul_inf_neg hl2).2.1])))
    · subst h
      rcases hu with rfl | rfl <;> simp [mul] at hn
    · have hu2 : lt (fin 0) u2 = true := lt_of_lt_of_le h h4
      rcases hu with rfl | rfl
      · have := eq_ninf_of_le h1
        subst this
        exact Or.inr (Or.inl (by rw [(mul_inf_pos h).1, (mul_inf_pos hu2).1]))
      · have := eq_pinf_of_le h2
        subst this
        exact Or.inl (by rw [(mul_inf_pos h).2.1, (mul_inf_pos hu2).2.1])
  have hcase : ∀ w : Dbl, w ≠ nan → w.isFinite = false → w = ninf ∨ w = pinf := by
    intro w hw hf
    cases w <;> simp_all [isFinite]
  rcases hinf with h | h
  · exact one h1 h2 h3 h4 hn hv (hcase u hu h)
  · have hn' : mul v u ≠ nan := by rw [mul_swap]; exact hn
    have r := one h3 h4 h1 h2 hn' hu (hcase v hv h)
    rw [mul_swap u2 u1, mul_swap l2 u1, mul_swap u2 l1, mul_swap l2 l1, mul_swap v u] at r
    rcases r with r | r | r | r
    · exact Or.inl r
    · exact Or.inr (Or.inr (Or.inl r))
    · exact Or.inr (Or.inl r)
    · exact Or.inr (Or.inr (Or.inr r))

/-- A product that is not NaN lies between corner products of every box that
holds its factors, also at the infinities, unless all four corner products
are NaN. -/
theorem mul_corner {l1 u1 l2 u2 u v : Dbl} (h1 : le l1 u = true) (h2 : le u u1 = true)
    (h3 : le l2 v = true) (h4 : le v u2 = true) (hn : mul u v ≠ nan)
    (hc : mul u1 u2 ≠ nan ∨ mul l1 u2 ≠ nan ∨ mul u1 l2 ≠ nan ∨ mul l1 l2 ≠ nan) :
    (le (mul u1 u2) (mul u v) = true ∨ le (mul l1 u2) (mul u v) = true ∨
      le (mul u1 l2) (mul u v) = true ∨ le (mul l1 l2) (mul u v) = true) ∧
    (le (mul u v) (mul u1 u2) = true ∨ le (mul u v) (mul l1 u2) = true ∨
      le (mul u v) (mul u1 l2) = true ∨ le (mul u v) (mul l1 l2) = true) := by
  by_cases hf : u.isFinite = true ∧ v.isFinite = true
  · obtain ⟨p, rfl⟩ := isFinite_iff.1 hf.1
    obtain ⟨q, rfl⟩ := isFinite_iff.1 hf.2
    have e : mul (fin p) (fin q) = fin (p * q) := rfl
    have hL := mul_lower (x := (p : ℝ)) (y := (q : ℝ)) (leReal_cast_iff.2 h1)
      (geReal_cast_iff.2 h2) (leReal_cast_iff.2 h3) (geReal_cast_iff.2 h4) hc
    have hU := mul_upper (x := (p : ℝ)) (y := (q : ℝ)) (leReal_cast_iff.2 h1)
      (geReal_cast_iff.2 h2) (leReal_cast_iff.2 h3) (geReal_cast_iff.2 h4) hc
    rw [e]
    have c : ((p : ℝ) * (q : ℝ)) = ((p * q : ℚ) : ℝ) := by push_cast; rfl
    rw [c] at hL hU
    simp only [leReal_cast_iff, geReal_cast_iff] at hL hU
    exact ⟨hL, hU⟩
  · have hinf : u.isFinite = false ∨ v.isFinite = false := by
      by_contra hcon
      push_neg at hcon
      exact hf ⟨by simpa using hcon.1, by simpa using hcon.2⟩
    have r := mul_edge h1 h2 h3 h4 hn hinf
    have hr : le (mul u v) (mul u v) = true := le_rfl hn
    constructor
    · rcases r with r | r | r | r
      · exact Or.inl (by rw [r]; exact hr)
      · exact Or.inr (Or.inl (by rw [r]; exact hr))
      · exact Or.inr (Or.inr (Or.inl (by rw [r]; exact hr)))
      · exact Or.inr (Or.inr (Or.inr (by rw [r]; exact hr)))
    · rcases r with r | r | r | r
      · exact Or.inl (by rw [r]; exact hr)
      · exact Or.inr (Or.inl (by rw [r]; exact hr))
      · exact Or.inr (Or.inr (Or.inl (by rw [r]; exact hr)))
      · exact Or.inr (Or.inr (Or.inr (by rw [r]; exact hr)))

/-- Order of the reciprocals of doubles of one sign. -/
theorem recip_le {l2 u2 v : Dbl} (h3 : le l2 v = true) (h4 : le v u2 = true)
    (h0 : lt (fin 0) l2 = true ∨ lt u2 (fin 0) = true) :
    le (recip u2) (recip v) = true ∧ le (recip v) (recip l2) = true ∧
      (v ≠ nan ∧ v ≠ fin 0) ∧ (l2 ≠ nan ∧ l2 ≠ fin 0) ∧ (u2 ≠ nan ∧ u2 ≠ fin 0) := by
  rcases h0 with h | h
  · cases l2 <;> simp [lt] at h <;> cases v <;> simp [le] at h3 <;>
      cases u2 <;> simp [le] at h4 <;> simp [recip, le] <;>
      (repeat' constructor) <;>
      first
        | linarith
        | exact inv_anti₀ (by linarith) (by linarith)
  · cases u2 <;> simp [lt] at h <;> cases v <;> simp [le] at h4 <;>
      cases l2 <;> simp [le] at h3 <;> simp [recip, le] <;>
      (repeat' constructor) <;>
      first
        | linarith
        | exact (inv_le_inv_of_neg (by linarith) (by linarith)).2 (by linarith)

/-- A quotient that is not NaN lies between corner quotients of every box
that holds its terms and whose second side excludes zero, also at the
infinities, unless all four corner quotients are NaN. -/
theorem div_corner {l1 u1 l2 u2 u v : Dbl} (h1 : le l1 u = true) (h2 : le u u1 = true)
    (h3 : le l2 v = true) (h4 : le v u2 = true)
    (h0 : lt (fin 0) l2 = true ∨ lt u2 (fin 0) = true) (hn : div u v ≠ nan)
    (hc : div u1 u2 ≠ nan ∨ div l1 u2 ≠ nan ∨ div u1 l2 ≠ nan ∨ div l1 l2 ≠ nan) :
    (le (div u1 u2) (div u v) = true ∨ le (div l1 u2) (div u v) = true ∨
      le (div u1 l2) (div u v) = true ∨ le (div l1 l2) (div u v) = true) ∧
    (le (div u v) (div u1 u2) = true ∨ le (div u v) (div l1 u2) = true ∨
      le (div u v) (div u1 l2) = true ∨ le (div u v) (div l1 l2) = true) := by
  obtain ⟨r1, r2, ⟨v1, v2⟩, ⟨a1, a2⟩, ⟨a3, a4⟩⟩ := recip_le h3 h4 h0
  rw [div_eq_mul_recip u1 u2 a3 a4, div_eq_mul_recip l1 u2 a3 a4,
    div_eq_mul_recip u1 l2 a1 a2, div_eq_mul_recip l1 l2 a1 a2,
    div_eq_mul_recip u v v1 v2] at *
  have hc' : mul u1 (recip l2) ≠ nan ∨ mul l1 (recip l2) ≠ nan ∨
      mul u1 (recip u2) ≠ nan ∨ mul l1 (recip u2) ≠ nan := by
    rcases hc with h | h | h | h
    · exact Or.inr (Or.inr (Or.inl h))
    · exact Or.inr (Or.inr (Or.inr h))
    · exact Or.inl h
    · exact Or.inr (Or.inl h)
  obtain ⟨hL, hU⟩ := mul_corner h1 h2 r1 r2 hn hc'
  constructor
  · rcases hL with h | h | h | h
    · exact Or.inr (Or.inr (Or.inl h))
    · exact Or.inr (Or.inr (Or.inr h))
    · exact Or.inl h
    · exact Or.inr (Or.inl h)
  · rcases hU with h | h | h | h
    · exact Or.inr (Or.inr (Or.inl h))
    · exact Or.inr (Or.inr (Or.inr h))
    · exact Or.inl h
    · exact Or.inr (Or.inl h)

end Dbl

/-! ## Stepping at the infinities -/

theorem outward_strict {nextafter : Dbl → Dbl → Dbl} (hout : OutwardStep nextafter) :
    StrictStep nextafter := by
  intro q
  have h := hout (fin q) (by simp)
  simpa using h

theorem down_le_self {nextafter : Dbl → Dbl → Dbl} (hout : OutwardStep nextafter) {z : Dbl}
    (hz : z ≠ nan) : Dbl.le (down nextafter z) z = true := by
  have h := (hout z hz).1
  by_cases hn : z = ninf
  · rw [if_pos hn] at h
    rw [h, hn]
    rfl
  · rw [if_neg hn] at h
    exact Dbl.le_of_lt h

theorem self_le_up {nextafter : Dbl → Dbl → Dbl} (hout : OutwardStep nextafter) {z : Dbl}
    (hz : z ≠ nan) : Dbl.le z (up nextafter z) = true := by
  have h := (hout z hz).2
  by_cases hn : z = pinf
  · rw [if_pos hn] at h
    rw [h, hn]
    rfl
  · rw [if_neg hn] at h
    exact Dbl.le_of_lt h

theorem nextafter64_outward : OutwardStep nextafter64 := by
  intro z hz
  cases z with
  | nan => exact absurd rfl hz
  | ninf => simp [down, up, nextafter64, Dbl.lt]
  | pinf => simp [down, up, nextafter64, Dbl.lt]
  | fin q => simpa using nextafter64_strict q

theorem exists_corner_iff {f : Dbl → Dbl → Dbl} {a b : bounded_double} {P : Dbl → Prop} :
    (∃ c ∈ corners f a b, P c) ↔
      P (f a.max b.max) ∨ P (f a.min b.max) ∨ P (f a.max b.min) ∨ P (f a.min b.min) := by
  simp [corners]

/-- The returned lower bound is at most every corner value that is not NaN. -/
theorem apply2_min_le_corner {nextafter : Dbl → Dbl → Dbl} (hout : OutwardStep nextafter)
    (f : Dbl → Dbl → Dbl) (a b : bounded_double) {c : Dbl} (hc : c ∈ corners f a b)
    (hn : c ≠ nan) : Dbl.le (apply2 nextafter f a b).min c = true :=
  Dbl.le_trans
    (apply2_min_le_down nextafter f a b hc (Dbl.ne_nan_of_le_left (down_le_self hout hn)))
    (down_le_self hout hn)

/-- The returned upper bound is at least every corner value that is not NaN. -/
theorem apply2_corner_le_max {nextafter : Dbl → Dbl → Dbl} (hout : OutwardStep nextafter)
    (f : Dbl → Dbl → Dbl) (a b : bounded_double) {c : Dbl} (hc : c ∈ corners f a b)
    (hn : c ≠ nan) : Dbl.le c (apply2 nextafter f a b).max = true :=
  Dbl.le_trans (self_le_up hout hn)
    (apply2_max_ge_up nextafter f a b hc (Dbl.ne_nan_of_le_right (self_le_up hout hn)))

theorem ne_nan_of_leReal {c : Dbl} {r : ℝ} (h : c.leReal r) : c ≠ nan := by
  intro hc; rw [hc] at h; exact h

theorem ne_nan_of_geReal {c : Dbl} {r : ℝ} (h : c.geReal r) : c ≠ nan := by
  intro hc; rw [hc] at h; exact h

/-- A real between two corner values, of which the lower may be `-infinity`
and the upper `+infinity`, is enclosed by the result of binary `apply`. -/
theorem apply2_encloses_ext {nextafter : Dbl → Dbl → Dbl} (hout : OutwardStep nextafter)
    (f : Dbl → Dbl → Dbl) (a b : bounded_double) {r : ℝ}
    (hl : ∃ c ∈ corners f a b, c.leReal r) (hu : ∃ c ∈ corners f a b, c.geReal r) :
    encloses (apply2 nextafter f a b) r := by
  obtain ⟨c, hc, hcr⟩ := hl
  obtain ⟨d, hd, hdr⟩ := hu
  exact ⟨Dbl.leReal_of_le (apply2_min_le_corner hout f a b hc (ne_nan_of_leReal hcr)) hcr,
    Dbl.geReal_of_le (apply2_corner_le_max hout f a b hd (ne_nan_of_geReal hdr)) hdr⟩

/-- A double between two corner values is between the bounds binary `apply`
returns. -/
theorem apply2_between {nextafter : Dbl → Dbl → Dbl} (hout : OutwardStep nextafter)
    (f : Dbl → Dbl → Dbl) (a b : bounded_double) {t : Dbl}
    (hl : ∃ c ∈ corners f a b, Dbl.le c t = true)
    (hu : ∃ c ∈ corners f a b, Dbl.le t c = true) :
    Dbl.le (apply2 nextafter f a b).min t = true ∧
    Dbl.le t (apply2 nextafter f a b).max = true := by
  obtain ⟨c, hc, hct⟩ := hl
  obtain ⟨d, hd, htd⟩ := hu
  exact ⟨Dbl.le_trans (apply2_min_le_corner hout f a b hc (Dbl.ne_nan_of_le_left hct)) hct,
    Dbl.le_trans htd (apply2_corner_le_max hout f a b hd (Dbl.ne_nan_of_le_right htd))⟩

/-- Below a corner value that is at most the rational `q`, the returned
lower bound is strictly below `q`. -/
theorem apply2_min_lt_of_leReal {nextafter : Dbl → Dbl → Dbl} (hout : OutwardStep nextafter)
    (f : Dbl → Dbl → Dbl) (a b : bounded_double) {q : ℚ}
    (hl : ∃ c ∈ corners f a b, c.leReal (q : ℝ)) :
    Dbl.lt (apply2 nextafter f a b).min (fin q) = true := by
  obtain ⟨c, hc, hcr⟩ := hl
  cases c with
  | nan => exact absurd hcr (by simp [Dbl.leReal])
  | pinf => exact absurd hcr (by simp [Dbl.leReal])
  | ninf =>
      have h := apply2_min_le_corner hout f a b hc (by simp)
      rw [Dbl.eq_ninf_of_le h]
      rfl
  | fin p =>
      have hpq : p ≤ q := by
        have : (p : ℝ) ≤ q := hcr
        exact_mod_cast this
      exact Dbl.lt_of_lt_of_le (apply2_min_lt_corner (outward_strict hout) f a b hc)
        ((Dbl.le_fin_iff _ _).2 hpq)

/-- Above a corner value that is at least the rational `q`, the returned
upper bound is strictly above `q`. -/
theorem apply2_max_gt_of_geReal {nextafter : Dbl → Dbl → Dbl} (hout : OutwardStep nextafter)
    (f : Dbl → Dbl → Dbl) (a b : bounded_double) {q : ℚ}
    (hu : ∃ c ∈ corners f a b, c.geReal (q : ℝ)) :
    Dbl.lt (fin q) (apply2 nextafter f a b).max = true := by
  obtain ⟨c, hc, hcr⟩ := hu
  cases c with
  | nan => exact absurd hcr (by simp [Dbl.geReal])
  | ninf => exact absurd hcr (by simp [Dbl.geReal])
  | pinf =>
      have h := apply2_corner_le_max hout f a b hc (by simp)
      rw [Dbl.eq_pinf_of_le h]
      rfl
  | fin p =>
      have hpq : q ≤ p := by
        have : (q : ℝ) ≤ p := hcr
        exact_mod_cast this
      exact Dbl.lt_of_le_of_lt ((Dbl.le_fin_iff _ _).2 hpq)
        (apply2_max_gt_corner (outward_strict hout) f a b hc)

theorem opAdd_encloses_ext {nextafter : Dbl → Dbl → Dbl} (hout : OutwardStep nextafter)
    {a b : bounded_double} {x y : ℝ} (hx : encloses a x) (hy : encloses b y) :
    encloses (opAdd nextafter a b) (x + y) := by
  have h := Dbl.add_bounds hx.1 hx.2 hy.1 hy.2
  exact apply2_encloses_ext hout plus a b ⟨_, by simp [corners, plus], h.1⟩
    ⟨_, by simp [corners, plus], h.2⟩

theorem opSub_encloses_ext {nextafter : Dbl → Dbl → Dbl} (hout : OutwardStep nextafter)
    {a b : bounded_double} {x y : ℝ} (hx : encloses a x) (hy : encloses b y) :
    encloses (opSub nextafter a b) (x - y) := by
  have h := Dbl.sub_bounds hx.1 hx.2 hy.1 hy.2
  exact apply2_encloses_ext hout minus a b ⟨_, by simp [corners, minus], h.1⟩
    ⟨_, by simp [corners, minus], h.2⟩

/-- Some corner quotient is at most `x / y` and some is at least `x / y`, for
`x`, `y` in two boxes whose sides may be infinite, the second without zero. -/
theorem divide_corner_bounds_ext {a b : bounded_double} {x y : ℝ} (hx : encloses a x)
    (hy : encloses b y) (h0 : Dbl.lt (fin 0) b.min = true ∨ Dbl.lt b.max (fin 0) = true) :
    (∃ c ∈ corners divide a b, c.leReal (x / y)) ∧
    (∃ c ∈ corners divide a b, c.geReal (x / y)) := by
  rw [exists_corner_iff, exists_corner_iff]
  exact Dbl.div_bounds hx.1 hx.2 hy.1 hy.2 h0

/-- A sum of doubles of two boxes that is not NaN lies between corner sums. -/
theorem plus_corner_between (a b : bounded_double) {u v : Dbl}
    (h1 : Dbl.le a.min u = true) (h2 : Dbl.le u a.max = true)
    (h3 : Dbl.le b.min v = true) (h4 : Dbl.le v b.max = true) (hn : plus u v ≠ nan) :
    (∃ c ∈ corners plus a b, Dbl.le c (plus u v) = true) ∧
    (∃ c ∈ corners plus a b, Dbl.le (plus u v) c = true) := by
  rw [exists_corner_iff, exists_corner_iff]
  obtain ⟨hL, hU⟩ := Dbl.add_corner h1 h2 h3 h4 hn
  constructor
  · rcases hL with h | h
    · exact Or.inr (Or.inr (Or.inr h))
    · exact Or.inl h
  · rcases hU with h | h
    · exact Or.inl h
    · exact Or.inr (Or.inr (Or.inr h))

/-- A difference of doubles of two boxes that is not NaN lies between corner
differences. -/
theorem minus_corner_between (a b : bounded_double) {u v : Dbl}
    (h1 : Dbl.le a.min u = true) (h2 : Dbl.le u a.max = true)
    (h3 : Dbl.le b.min v = true) (h4 : Dbl.le v b.max = true) (hn : minus u v ≠ nan) :
    (∃ c ∈ corners minus a b, Dbl.le c (minus u v) = true) ∧
    (∃ c ∈ corners minus a b, Dbl.le (minus u v) c = true) := by
  rw [exists_corner_iff, exists_corner_iff]
  obtain ⟨hL, hU⟩ := Dbl.sub_corner h1 h2 h3 h4 hn
  constructor
  · rcases hL with h | h
    · exact Or.inr (Or.inl h)
    · exact Or.inr (Or.inr (Or.inl h))
  · rcases hU with h | h
    · exact Or.inr (Or.inr (Or.inl h))
    · exact Or.inr (Or.inl h)

/-- A product of doubles of two boxes that is not NaN lies between corner
products, unless all four corner products are NaN. -/
theorem times_corner_between (a b : bounded_double) {u v : Dbl}
    (h1 : Dbl.le a.min u = true) (h2 : Dbl.le u a.max = true)
    (h3 : Dbl.le b.min v = true) (h4 : Dbl.le v b.max = true) (hn : times u v ≠ nan)
    (hc : ∃ c ∈ corners times a b, c ≠ nan) :
    (∃ c ∈ corners times a b, Dbl.le c (times u v) = true) ∧
    (∃ c ∈ corners times a b, Dbl.le (times u v) c = true) := by
  rw [exists_corner_iff] at hc
  rw [exists_corner_iff, exists_corner_iff]
  exact Dbl.mul_corner h1 h2 h3 h4 hn hc

/-- A quotient of doubles of two boxes, the second without zero, that is not
NaN lies between corner quotients, unless all four corner quotients are
NaN. -/
theorem divide_corner_between (a b : bounded_double) {u v : Dbl}
    (h1 : Dbl.le a.min u = true) (h2 : Dbl.le u a.max = true)
    (h3 : Dbl.le b.min v = true) (h4 : Dbl.le v b.max = true)
    (h0 : Dbl.lt (fin 0) b.min = true ∨ Dbl.lt b.max (fin 0) = true)
    (hn : divide u v ≠ nan) (hc : ∃ c ∈ corners divide a b, c ≠ nan) :
    (∃ c ∈ corners divide a b, Dbl.le c (divide u v) = true) ∧
    (∃ c ∈ corners divide a b, Dbl.le (divide u v) c = true) := by
  rw [exists_corner_iff] at hc
  rw [exists_corner_iff, exists_corner_iff]
  exact Dbl.div_corner h1 h2 h3 h4 h0 hn hc

/-- An unbounded quotient encloses its typical value exactly when that value
is not NaN. -/
theorem typicalEnclosed_unbounded (t : Dbl) :
    typicalEnclosed (mk3 ninf t pinf) ↔ t ≠ nan := by
  cases t <;> simp [typicalEnclosed, mk3, Dbl.le]

/-- Unary `apply` of a monotonic `f` encloses `f(x)` for every `x` of the
interval, also where `f` is infinite. -/
theorem apply_mono_bounds_ext {nextafter : Dbl → Dbl → Dbl} (hout : OutwardStep nextafter)
    (f : Dbl → Dbl) (a : bounded_double)
    (hmono : NonDecreasingOn f a.min a.max ∨ NonIncreasingOn f a.min a.max)
    (x : Dbl) (hx1 : Dbl.le a.min x = true) (hx2 : Dbl.le x a.max = true) :
    Dbl.le (apply nextafter f a).min (f x) = true ∧
    Dbl.le (f x) (apply nextafter f a).max = true := by
  have hlo : Dbl.le a.min a.min = true := Dbl.le_rfl (Dbl.ne_nan_of_le_left hx1)
  have hhi : Dbl.le a.max a.max = true := Dbl.le_rfl (Dbl.ne_nan_of_le_right hx2)
  show Dbl.le (down nextafter (Dbl.min (f a.min) (f a.max))) (f x) = true ∧
    Dbl.le (f x) (up nextafter (Dbl.max (f a.min) (f a.max))) = true
  rcases hmono with hm | hm
  · have e1 : Dbl.le (f a.min) (f x) = true := hm a.min x hlo hx1 hx2
    have e2 : Dbl.le (f x) (f a.max) = true := hm x a.max hx1 hx2 hhi
    have e3 : Dbl.le (f a.min) (f a.max) = true := Dbl.le_trans e1 e2
    rw [Dbl.min_eq_left_of_le e3, Dbl.max_eq_right_of_le e3]
    exact ⟨Dbl.le_trans (down_le_self hout (Dbl.ne_nan_of_le_left e1)) e1,
      Dbl.le_trans e2 (self_le_up hout (Dbl.ne_nan_of_le_right e2))⟩
  · have e1 : Dbl.le (f x) (f a.min) = true := hm a.min x hlo hx1 hx2
    have e2 : Dbl.le (f a.max) (f x) = true := hm x a.max hx1 hx2 hhi
    have e3 : Dbl.le (f a.max) (f a.min) = true := Dbl.le_trans e2 e1
    rw [Dbl.min_eq_right_of_le e3, Dbl.max_eq_left_of_le e3]
    exact ⟨Dbl.le_trans (down_le_self hout (Dbl.ne_nan_of_le_left e2)) e2,
      Dbl.le_trans e1 (self_le_up hout (Dbl.ne_nan_of_le_right e1))⟩

/-- With a divisor whose interval excludes zero, `a / b` encloses `x / y`,
also for infinite bounds. -/
theorem opDiv_encloses_ext {nextafter : Dbl → Dbl → Dbl} (hout : OutwardStep nextafter)
    {a b : bounded_double}
    (h0 : Dbl.lt (fin 0) b.min = true ∨ Dbl.lt b.max (fin 0) = true)
    {x y : ℝ} (hx : encloses a x) (hy : encloses b y) :
    encloses (opDiv nextafter a b) (x / y) := by
  rw [opDiv_of_excludes nextafter a b h0]
  obtain ⟨hl, hu⟩ := divide_corner_bounds_ext hx hy h0
  exact apply2_encloses_ext hout divide a b hl hu

/-- With a corner value that is not NaN, binary `apply` returns
`min <= max`. -/
theorem apply2_min_le_max {nextafter : Dbl → Dbl → Dbl} (hout : OutwardStep nextafter)
    (f : Dbl → Dbl → Dbl) (a b : bounded_double) (hc : ∃ c ∈ corners f a b, c ≠ nan) :
    Dbl.le (apply2 nextafter f a b).min (apply2 nextafter f a b).max = true := by
  obtain ⟨c, hc, hn⟩ := hc
  exact Dbl.le_trans (apply2_min_le_corner hout f a b hc hn)
    (apply2_corner_le_max hout f a b hc hn)

/-- With a finite bound of the promoted `-1`, one of the four corner products
of unary minus is not NaN. -/
theorem opNeg_corner {nextafter : Dbl → Dbl → Dbl} (hout : OutwardStep nextafter)
    (a : bounded_double) (hl : a.min ≠ nan) (hu : a.max ≠ nan)
    (hm : (down nextafter (fin (-1))).isFinite = true ∨
      (up nextafter (fin (-1))).isFinite = true) :
    ∃ c ∈ corners times a (assign nextafter (fin (-1))), c ≠ nan := by
  have hstep := outward_strict hout
  rw [exists_corner_iff]
  show Dbl.mul a.max (up nextafter (fin (-1))) ≠ nan ∨
    Dbl.mul a.min (up nextafter (fin (-1))) ≠ nan ∨
    Dbl.mul a.max (down nextafter (fin (-1))) ≠ nan ∨
    Dbl.mul a.min (down nextafter (fin (-1))) ≠ nan
  by_cases hd : (down nextafter (fin (-1))).isFinite = true
  · obtain ⟨q, hq⟩ := Dbl.isFinite_iff.1 hd
    have hlt := (hstep (-1)).1
    rw [hq] at hlt ⊢
    have hq0 : q < -1 := (Dbl.lt_fin_iff _ _).1 hlt
    exact Or.inr (Or.inr (Or.inr (Dbl.mul_ne_nan_of_ne_zero hl
      (by simp only [ne_eq, Dbl.fin.injEq]; linarith))))
  · have hu1 : (up nextafter (fin (-1))).isFinite = true := by
      rcases hm with h | h
      · exact absurd h hd
      · exact h
    obtain ⟨q, hq⟩ := Dbl.isFinite_iff.1 hu1
    have hdn : down nextafter (fin (-1)) = ninf := by
      have hlt := (hstep (-1)).1
      cases h : down nextafter (fin (-1)) <;> simp_all [Dbl.lt, Dbl.isFinite]
    rw [hq, hdn]
    cases hmax : a.max with
    | nan => exact absurd hmax hu
    | fin p => exact Or.inl (by simp [Dbl.mul])
    | ninf => exact Or.inr (Or.inr (Or.inl (by simp [Dbl.mul])))
    | pinf => exact Or.inr (Or.inr (Or.inl (by simp [Dbl.mul])))

/-- With binary64 stepping the promoted `-1` has finite bounds. -/
theorem promoted_neg_one_finite :
    (down nextafter64 (fin (-1))).isFinite = true ∧
      (up nextafter64 (fin (-1))).isFinite = true := by
  decide!

/-- Unary minus keeps `min <= typical <= max` when a corner product is not
NaN. -/
theorem opNeg_typicalEnclosed {nextafter : Dbl → Dbl → Dbl} (hout : OutwardStep nextafter)
    (a : bounded_double) (ha : typicalEnclosed a)
    (hc : ∃ c ∈ corners times a (assign nextafter (fin (-1))), c ≠ nan) :
    typicalEnclosed (opNeg nextafter a) := by
  have hstep := outward_strict hout
  have hm : typicalEnclosed (assign nextafter (fin (-1))) :=
    ⟨Dbl.le_of_lt (hstep (-1)).1, Dbl.le_of_lt (hstep (-1)).2⟩
  have hn : times a.typical (fin (-1)) ≠ nan :=
    Dbl.mul_ne_nan_of_ne_zero (Dbl.ne_nan_of_le_right ha.1) (by simp)
  obtain ⟨hl, hu⟩ := times_corner_between a (assign nextafter (fin (-1)))
    ha.1 ha.2 hm.1 hm.2 hn hc
  exact apply2_between hout times a (assign nextafter (fin (-1))) hl hu

/-! ## The claims -/

/-- C1: enclosure under `+` and `-`.  Under the stepping contract of
`nextafter`, for all bounded values `a`, `b` with `a.min <= a.max` and
`b.min <= b.max`, finite or infinite, and reals `x` in `[a.min, a.max]`, `y`
in `[b.min, b.max]`: `a + b` encloses `x + y` and `a - b` encloses `x - y`.
With binary64 stepping, `promote(1) + promote(2)` has typical `3` and
`min < 3 < max`. -/
theorem C1_add_sub_enclosure (nextafter : Dbl → Dbl → Dbl) (hout : OutwardStep nextafter)
    (a b : bounded_double)
    (_ha : Dbl.le a.min a.max = true) (_hb : Dbl.le b.min b.max = true)
    (x y : ℝ) (hx : encloses a x) (hy : encloses b y) :
    (encloses (opAdd nextafter a b) (x + y) ∧ encloses (opSub nextafter a b) (x - y)) ∧
    ((opAdd nextafter64 (assign nextafter64 (fin 1)) (assign nextafter64 (fin 2))).typical
        = fin 3 ∧
      Dbl.lt (opAdd nextafter64 (assign nextafter64 (fin 1)) (assign nextafter64 (fin 2))).min
        (fin 3) = true ∧
      Dbl.lt (fin 3)
        (opAdd nextafter64 (assign nextafter64 (fin 1)) (assign nextafter64 (fin 2))).max
        = true) := by
  refine ⟨⟨opAdd_encloses_ext hout hx hy, opSub_encloses_ext hout hx hy⟩, ?_⟩
  decide!

/-- C1 at the unbounded `a = (min -infinity, typical 4, max +infinity)`, which
`operator/` returns, and `b = promote(2)`, `x = 4`, `y = 2`, with binary64
stepping. -/
theorem C1_add_sub_enclosure_witness :
    OutwardStep nextafter64 ∧
    encloses (mk3 ninf (fin 4) pinf) 4 ∧ encloses (assign nextafter64 (fin 2)) 2 ∧
    encloses (opAdd nextafter64 (mk3 ninf (fin 4) pinf) (assign nextafter64 (fin 2)))
      (4 + 2) ∧
    encloses (opSub nextafter64 (mk3 ninf (fin 4) pinf) (assign nextafter64 (fin 2)))
      (4 - 2) := by
  have h1 : encloses (mk3 ninf (fin 4) pinf) 4 := by
    constructor <;> simp [mk3, Dbl.leReal, Dbl.geReal]
  have h2 : encloses (assign nextafter64 (fin 2)) 2 := by
    simpa using assign_encloses nextafter64_strict 2
  have h := C1_add_sub_enclosure nextafter64 nextafter64_outward
    (mk3 ninf (fin 4) pinf) (assign nextafter64 (fin 2))
    (by decide!) (by decide!) 4 2 h1 h2
  exact ⟨nextafter64_outward, h1, h2, h.1.1, h.1.2⟩

/-- C3: non-straddling division.  Under the stepping contract of `nextafter`,
for all bounded values `a`, `b` with `a.min <= a.max`, `b.min <= b.max`,
finite or infinite, and `b.min > 0` or `b.max < 0`, and reals `x` in
`[a.min, a.max]`, `y` in `[b.min, b.max]`:
`(a / b).min <= x / y <= (a / b).max`.  With binary64 stepping,
`promote(1) / promote(2)` encloses `1/2`. -/
theorem C3_div_enclosure (nextafter : Dbl → Dbl → Dbl) (hout : OutwardStep nextafter)
    (a b : bounded_double)
    (_ha : Dbl.le a.min a.max = true) (_hb : Dbl.le b.min b.max = true)
    (h0 : Dbl.gt b.min (fin 0) = true ∨ Dbl.lt b.max (fin 0) = true)
    (x y : ℝ) (hx : encloses a x) (hy : encloses b y) :
    ((opDiv nextafter a b).min.leReal (x / y) ∧ (opDiv nextafter a b).max.geReal (x / y)) ∧
    encloses (opDiv nextafter64 (assign nextafter64 (fin 1)) (assign nextafter64 (fin 2)))
      (1 / 2) := by
  refine ⟨opDiv_encloses_ext hout h0 hx hy, ?_⟩
  have h1 : encloses (assign nextafter64 (fin 1)) 1 := by
    simpa using assign_encloses nextafter64_strict 1
  have h2 : encloses (assign nextafter64 (fin 2)) 2 := by
    simpa using assign_encloses nextafter64_strict 2
  exact opDiv_encloses_ext nextafter64_outward (Or.inl (by decide!)) h1 h2

/-- C3 at the unbounded `a = (min -infinity, typical 4, max +infinity)`, which
`operator/` returns, and `b = promote(2)`, `x = 4`, `y = 2`, with binary64
stepping. -/
theorem C3_div_enclosure_witness :
    OutwardStep nextafter64 ∧
    Dbl.gt (assign nextafter64 (fin 2)).min (fin 0) = true ∧
    (opDiv nextafter64 (mk3 ninf (fin 4) pinf) (assign nextafter64 (fin 2))).min.leReal
      (4 / 2) ∧
    (opDiv nextafter64 (mk3 ninf (fin 4) pinf) (assign nextafter64 (fin 2))).max.geReal
      (4 / 2) := by
  have h1 : encloses (mk3 ninf (fin 4) pinf) 4 := by
    constructor <;> simp [mk3, Dbl.leReal, Dbl.geReal]
  have h2 : encloses (assign nextafter64 (fin 2)) 2 := by
    simpa using assign_encloses nextafter64_strict 2
  have h0 : Dbl.gt (assign nextafter64 (fin 2)).min (fin 0) = true := by decide!
  have h := C3_div_enclosure nextafter64 nextafter64_outward
    (mk3 ninf (fin 4) pinf) (assign nextafter64 (fin 2))
    (by decide!) (by decide!) (Or.inl h0) 4 2 h1 h2
  exact ⟨nextafter64_outward, h0, h.1.1, h.1.2⟩

/-- C4: division by a zero-straddling divisor.  For every `a` and every `b`
with `b.min <= 0 <= b.max`, `a / b` has `min = -infinity`, `max = +infinity`
and `typical = a.typical / b.typical`; when `b.min > 0` or `b.max < 0` (and
whenever the test `b.min <= 0 && b.max >= 0` fails) `a / b` is binary `apply`
of ordinary division to `(a, b)`. -/
theorem C4_div_zero_straddle (nextafter : Dbl → Dbl → Dbl) (a b : bounded_double) :
    (Dbl.le b.min (fin 0) = true → Dbl.le (fin 0) b.max = true →
      (opDiv nextafter a b).min = ninf ∧ (opDiv nextafter a b).max = pinf ∧
      (opDiv nextafter a b).typical = Dbl.div a.typical b.typical) ∧
    (Dbl.gt b.min (fin 0) = true ∨ Dbl.lt b.max (fin 0) = true →
      opDiv nextafter a b = apply2 nextafter divide a b) ∧
    (¬ (Dbl.le b.min (fin 0) = true ∧ Dbl.le (fin 0) b.max = true) →
      opDiv nextafter a b = apply2 nextafter divide a b) := by
  refine ⟨?_, opDiv_of_excludes nextafter a b, ?_⟩
  · intro h1 h2
    simp [opDiv, Dbl.ge, h1, h2]
  · intro h
    unfold opDiv
    rw [if_neg]
    simpa [Dbl.ge] using h

/-- C4 at the divisor `(min -1/2, typical 1/4, max 1/2)` under
`a = promote(1)`, and at the divisor `promote(2)`, with binary64 stepping. -/
theorem C4_div_zero_straddle_witness :
    opDiv nextafter64 (assign nextafter64 (fin 1))
        (mk3 (fin (-1 / 2)) (fin (1 / 4)) (fin (1 / 2)))
      = mk3 ninf (fin 4) pinf ∧
    opDiv nextafter64 (assign nextafter64 (fin 1)) (assign nextafter64 (fin 2))
      = apply2 nextafter64 divide (assign nextafter64 (fin 1)) (assign nextafter64 (fin 2)) := by
  have h := C4_div_zero_straddle nextafter64 (assign nextafter64 (fin 1))
    (mk3 (fin (-1 / 2)) (fin (1 / 4)) (fin (1 / 2)))
  have k := C4_div_zero_straddle nextafter64 (assign nextafter64 (fin 1))
    (assign nextafter64 (fin 2))
  obtain ⟨h1, h2, h3⟩ := h.1 (by decide!) (by decide!)
  refine ⟨?_, k.2.1 (Or.inl (by decide!))⟩
  have ht : Dbl.div (assign nextafter64 (fin 1)).typical
      (mk3 (fin (-1 / 2)) (fin (1 / 4)) (fin (1 / 2))).typical = fin 4 := by decide!
  rw [ht] at h3
  cases hr : opDiv nextafter64 (assign nextafter64 (fin 1))
    (mk3 (fin (-1 / 2)) (fin (1 / 4)) (fin (1 / 2)))
  rw [hr] at h1 h2 h3
  simp only at h1 h2 h3
  simp [mk3, h1, h2, h3]

/-- C5, as stated, fails: with binary64 stepping the dividend
`(min -1, typical 0, max 1)` contains zero, the divisor `promote(2)` excludes
it, and the quotient has finite bounds: `-1 < min` and `max < 1`. -/
theorem C5_zero_dividend_counterexample :
    (Dbl.le (mk3 (fin (-1)) (fin 0) (fin 1)).min (fin 0) = true ∧
      Dbl.le (fin 0) (mk3 (fin (-1)) (fin 0) (fin 1)).max = true) ∧
    Dbl.gt (assign nextafter64 (fin 2)).min (fin 0) = true ∧
    Dbl.lt (fin (-1))
      (opDiv nextafter64 (mk3 (fin (-1)) (fin 0) (fin 1)) (assign nextafter64 (fin 2))).min
      = true ∧
    Dbl.lt
      (opDiv nextafter64 (mk3 (fin (-1)) (fin 0) (fin 1)) (assign nextafter64 (fin 2))).max
      (fin 1) = true ∧
    ¬ ((opDiv nextafter64 (mk3 (fin (-1)) (fin 0) (fin 1)) (assign nextafter64 (fin 2))).min
          = ninf ∧
        (opDiv nextafter64 (mk3 (fin (-1)) (fin 0) (fin 1)) (assign nextafter64 (fin 2))).max
          = pinf) := by
  decide!

/-- C5, amended: a dividend whose interval contains zero gets no special
treatment.  Under the stepping contract of `nextafter`, for every `a` with
`a.min <= 0 <= a.max` and every `b` with `b.min > 0` or `b.max < 0`: `a / b`
is binary `apply` of division to `(a, b)`; and when some real number lies in
`[b.min, b.max]`, the result has `min < 0 < max`. -/
theorem C5_zero_dividend_div (nextafter : Dbl → Dbl → Dbl) (hout : OutwardStep nextafter)
    (a b : bounded_double)
    (ha0 : Dbl.le a.min (fin 0) = true ∧ Dbl.le (fin 0) a.max = true)
    (hb0 : Dbl.gt b.min (fin 0) = true ∨ Dbl.lt b.max (fin 0) = true) :
    opDiv nextafter a b = apply2 nextafter divide a b ∧
    ((∃ y : ℝ, encloses b y) →
      Dbl.lt (opDiv nextafter a b).min (fin 0) = true ∧
      Dbl.lt (fin 0) (opDiv nextafter a b).max = true) := by
  have hbr := opDiv_of_excludes nextafter a b hb0
  refine ⟨hbr, ?_⟩
  rintro ⟨y, hy⟩
  have hx : encloses a ((0 : ℚ) : ℝ) :=
    ⟨Dbl.leReal_cast_iff.2 ha0.1, Dbl.geReal_cast_iff.2 ha0.2⟩
  obtain ⟨hl, hu⟩ := divide_corner_bounds_ext hx hy hb0
  have e : ((0 : ℚ) : ℝ) / y = ((0 : ℚ) : ℝ) := by simp
  rw [e] at hl hu
  rw [hbr]
  exact ⟨apply2_min_lt_of_leReal hout divide a b hl, apply2_max_gt_of_geReal hout divide a b hu⟩

/-- C5 amended, at `a = (min -1, typical 0, max 1)`, `b = promote(2)` with
binary64 stepping. -/
theorem C5_zero_dividend_div_witness :
    OutwardStep nextafter64 ∧
    encloses (assign nextafter64 (fin 2)) 2 ∧
    opDiv nextafter64 (mk3 (fin (-1)) (fin 0) (fin 1)) (assign nextafter64 (fin 2))
      = apply2 nextafter64 divide (mk3 (fin (-1)) (fin 0) (fin 1))
          (assign nextafter64 (fin 2)) ∧
    Dbl.lt (opDiv nextafter64 (mk3 (fin (-1)) (fin 0) (fin 1))
      (assign nextafter64 (fin 2))).min (fin 0) = true ∧
    Dbl.lt (fin 0) (opDiv nextafter64 (mk3 (fin (-1)) (fin 0) (fin 1))
      (assign nextafter64 (fin 2))).max = true := by
  have h2 : encloses (assign nextafter64 (fin 2)) 2 := by
    simpa using assign_encloses nextafter64_strict 2
  have h := C5_zero_dividend_div nextafter64 nextafter64_outward
    (mk3 (fin (-1)) (fin 0) (fin 1)) (assign nextafter64 (fin 2))
    ⟨by decide!, by decide!⟩ (Or.inl (by decide!))
  exact ⟨nextafter64_outward, h2, h.1, (h.2 ⟨2, h2⟩).1, (h.2 ⟨2, h2⟩).2⟩

/-- C6: unary `apply`.  Under the stepping contract of `nextafter`, for every
`a` with `a.min <= a.max` and every `f` non-decreasing or non-increasing on
`[a.min, a.max]`, with finite or infinite values: `a.apply(f)` has
`min = down(min(f(a.min), f(a.max)))`, `max = up(max(f(a.min), f(a.max)))`,
`typical = f(a.typical)`, and `min <= f(x) <= max` for every `x` in
`[a.min, a.max]`. -/
theorem C6_unary_apply_enclosure (nextafter : Dbl → Dbl → Dbl) (hout : OutwardStep nextafter)
    (f : Dbl → Dbl) (a : bounded_double) (_ha : Dbl.le a.min a.max = true)
    (hmono : NonDecreasingOn f a.min a.max ∨ NonIncreasingOn f a.min a.max) :
    (apply nextafter f a).min = down nextafter (Dbl.min (f a.min) (f a.max)) ∧
    (apply nextafter f a).max = up nextafter (Dbl.max (f a.min) (f a.max)) ∧
    (apply nextafter f a).typical = f a.typical ∧
    ∀ x : Dbl, Dbl.le a.min x = true → Dbl.le x a.max = true →
      Dbl.le (apply nextafter f a).min (f x) = true ∧
      Dbl.le (f x) (apply nextafter f a).max = true :=
  ⟨rfl, rfl, rfl, fun x hx1 hx2 => apply_mono_bounds_ext hout f a hmono x hx1 hx2⟩

/-- C6 at the non-increasing `f(x) = 1 / x`, which is `+infinity` at the end
point `0` of `a = (min 0, typical 1/2, max 1)`, and `x = 1/2`, with binary64
stepping: the upper bound is `+infinity`. -/
theorem C6_unary_apply_enclosure_witness :
    OutwardStep nextafter64 ∧
    NonIncreasingOn (fun x => Dbl.div (fin 1) x) (fin 0) (fin 1) ∧
    Dbl.div (fin 1) (fin 0) = pinf ∧
    Dbl.le (apply nextafter64 (fun x => Dbl.div (fin 1) x)
        (mk3 (fin 0) (fin (1 / 2)) (fin 1))).min (Dbl.div (fin 1) (fin (1 / 2))) = true ∧
    Dbl.le (Dbl.div (fin 1) (fin (1 / 2)))
        (apply nextafter64 (fun x => Dbl.div (fin 1) x)
          (mk3 (fin 0) (fin (1 / 2)) (fin 1))).max = true := by
  have hm : NonIncreasingOn (fun x => Dbl.div (fin 1) x) (fin 0) (fin 1) := by
    intro x y h1 h2 h3
    obtain ⟨p, rfl⟩ := Dbl.isFinite_iff.1
      (Dbl.isFinite_of_between (x := fin 0) (y := fin 1) rfl rfl h1 (Dbl.le_trans h2 h3))
    obtain ⟨q, rfl⟩ := Dbl.isFinite_iff.1
      (Dbl.isFinite_of_between (x := fin 0) (y := fin 1) rfl rfl (Dbl.le_trans h1 h2) h3)
    have hp0 : 0 ≤ p := (Dbl.le_fin_iff _ _).1 h1
    have hpq : p ≤ q := (Dbl.le_fin_iff _ _).1 h2
    have h1pos : Dbl.infOfSign 1 = pinf := Dbl.infOfSign_pos (by norm_num)
    by_cases hp : p = 0
    · by_cases hq : q = 0
      · simp [Dbl.div, hp, hq, h1pos, Dbl.le]
      · simp [Dbl.div, hp, hq, h1pos, Dbl.le]
    · have hp' : 0 < p := lt_of_le_of_ne hp0 (Ne.symm hp)
      have hq' : 0 < q := hp'.trans_le hpq
      simp only [Dbl.div, hp, hq'.ne', if_false, Dbl.le, decide_eq_true_eq]
      exact div_le_div_of_nonneg_left (by norm_num) hp' hpq
  have h := (C6_unary_apply_enclosure nextafter64 nextafter64_outward
    (fun x => Dbl.div (fin 1) x) (mk3 (fin 0) (fin (1 / 2)) (fin 1)) (by decide!)
    (Or.inr hm)).2.2.2 (fin (1 / 2)) (by decide!) (by decide!)
  exact ⟨nextafter64_outward, hm, by decide!, h.1, h.2⟩

/-- C7: promotion.  With binary64 stepping every finite `v` has
`down(v) < v < up(v)` strictly; on any platform the value promoted from `v`
has `typical = v`, `min = down(v)`, `max = up(v)`; and on any platform that
meets the stepping contract `min <= v <= max`. -/
theorem C7_promotion_soundness (v : ℚ) :
    (Dbl.lt (down nextafter64 (fin v)) (fin v) = true ∧
      Dbl.lt (fin v) (up nextafter64 (fin v)) = true) ∧
    (∀ nextafter : Dbl → Dbl → Dbl,
      (assign nextafter (fin v)).typical = fin v ∧
      (assign nextafter (fin v)).min = down nextafter (fin v) ∧
      (assign nextafter (fin v)).max = up nextafter (fin v)) ∧
    (∀ nextafter : Dbl → Dbl → Dbl, StrictStep nextafter →
      (Dbl.lt (down nextafter (fin v)) (fin v) = true ∧
        Dbl.lt (fin v) (up nextafter (fin v)) = true) ∧
      Dbl.le (assign nextafter (fin v)).min (fin v) = true ∧
      Dbl.le (fin v) (assign nextafter (fin v)).max = true) :=
  ⟨nextafter64_strict v, fun _ => ⟨rfl, rfl, rfl⟩,
    fun _ hstep => ⟨hstep v, Dbl.le_of_lt (hstep v).1, Dbl.le_of_lt (hstep v).2⟩⟩

/-- C7 at `v = 1` with binary64 stepping: the promoted value is
`(1 - 2^-53, 1, 1 + 2^-52)`. -/
theorem C7_promotion_soundness_witness :
    assign nextafter64 (fin 1)
      = mk3 (fin (1 - 2 ^ (-53 : ℤ))) (fin 1) (fin (1 + 2 ^ (-52 : ℤ))) ∧
    Dbl.le (assign nextafter64 (fin 1)).min (fin 1) = true ∧
    Dbl.le (fin 1) (assign nextafter64 (fin 1)).max = true :=
  ⟨by decide!, ((C7_promotion_soundness 1).2.2 nextafter64 nextafter64_strict).2⟩

/-- C8: the comparisons read `typical` only.  Each of `>`, `<`, `>=`, `<=`,
value-to-value and value-to-scalar, is the same comparison of the typical
fields; replacing the bounds of either operand leaves the answer unchanged;
`a = (min 0, typical 5, max 10)`, `b = (min 2, typical 3, max 20)` gives
`a > b` although `b.max > a.max`. -/
theorem C8_comparisons_typical_only (a b : bounded_double) (v l u l2 u2 : Dbl) :
    (opGt a b = Dbl.gt a.typical b.typical ∧ opLt a b = Dbl.lt a.typical b.typical ∧
      opGe a b = Dbl.ge a.typical b.typical ∧ opLe a b = Dbl.le a.typical b.typical ∧
      opGtScalar a v = Dbl.gt a.typical v ∧ opLtScalar a v = Dbl.lt a.typical v ∧
      opGeScalar a v = Dbl.ge a.typical v ∧ opLeScalar a v = Dbl.le a.typical v) ∧
    (opGt (mk3 l a.typical u) (mk3 l2 b.typical u2) = opGt a b ∧
      opLt (mk3 l a.typical u) (mk3 l2 b.typical u2) = opLt a b ∧
      opGe (mk3 l a.typical u) (mk3 l2 b.typical u2) = opGe a b ∧
      opLe (mk3 l a.typical u) (mk3 l2 b.typical u2) = opLe a b ∧
      opGtScalar (mk3 l a.typical u) v = opGtScalar a v ∧
      opLtScalar (mk3 l a.typical u) v = opLtScalar a v ∧
      opGeScalar (mk3 l a.typical u) v = opGeScalar a v ∧
      opLeScalar (mk3 l a.typical u) v = opLeScalar a v) ∧
    (opGt (mk3 (fin 0) (fin 5) (fin 10)) (mk3 (fin 2) (fin 3) (fin 20)) = true ∧
      Dbl.gt (mk3 (fin 2) (fin 3) (fin 20)).max (mk3 (fin 0) (fin 5) (fin 10)).max
        = true) := by
  refine ⟨⟨rfl, rfl, rfl, rfl, rfl, rfl, rfl, rfl⟩, ⟨rfl, rfl, rfl, rfl, rfl, rfl, rfl, rfl⟩, ?_⟩
  decide!

/-- C9, as stated, fails: with binary64 stepping, for
`a = (min 1, typical 3/2, max 2)`, `-(-a)` has `max = 2 + 2^-49`, four steps
above `2`, beyond `up(up(2)) = 2 + 2^-50`. -/
theorem C9_negation_counterexample :
    Dbl.le (mk3 (fin 1) (fin (3 / 2)) (fin 2)).min (mk3 (fin 1) (fin (3 / 2)) (fin 2)).max
      = true ∧
    (opNeg nextafter64 (opNeg nextafter64 (mk3 (fin 1) (fin (3 / 2)) (fin 2)))).max
      = fin (2 + 2 ^ (-49 : ℤ)) ∧
    up nextafter64 (up nextafter64 (mk3 (fin 1) (fin (3 / 2)) (fin 2)).max)
      = fin (2 + 2 ^ (-50 : ℤ)) ∧
    Dbl.le (opNeg nextafter64 (opNeg nextafter64 (mk3 (fin 1) (fin (3 / 2)) (fin 2)))).max
      (up nextafter64 (up nextafter64 (mk3 (fin 1) (fin (3 / 2)) (fin 2)).max)) = false := by
  have h1 : (mk3 (fin 1) (fin (3 / 2)) (fin 2)).max = fin 2 := rfl
  rw [neg_neg_one_two_max, h1, two_steps_up_from_two]
  decide!

/-- C9, amended: `-(-a)` keeps the typical value and never narrows.  Under the
stepping contract, for `a` with finite bounds and `a.min <= a.max`, when the
promoted `-1` and `-a` have finite bounds: `-(-a)` has `typical = a.typical`,
`min < a.min` and `max > a.max`.  (`typical` is kept for every `a`.) -/
theorem C9_negation_never_narrows (nextafter : Dbl → Dbl → Dbl)
    (hstep : StrictStep nextafter) (a : bounded_double)
    (hafin : a.min.isFinite = true ∧ a.max.isFinite = true)
    (ha : Dbl.le a.min a.max = true)
    (hm : (down nextafter (fin (-1))).isFinite = true ∧
      (up nextafter (fin (-1))).isFinite = true)
    (hn : (opNeg nextafter a).min.isFinite = true ∧ (opNeg nextafter a).max.isFinite = true) :
    (opNeg nextafter (opNeg nextafter a)).typical = a.typical ∧
    Dbl.lt (opNeg nextafter (opNeg nextafter a)).min a.min = true ∧
    Dbl.lt a.max (opNeg nextafter (opNeg nextafter a)).max = true := by
  obtain ⟨al, hal⟩ := Dbl.isFinite_iff.1 hafin.1
  obtain ⟨au, hau⟩ := Dbl.isFinite_iff.1 hafin.2
  obtain ⟨nl, hnl⟩ := Dbl.isFinite_iff.1 hn.1
  obtain ⟨nu, hnu⟩ := Dbl.isFinite_iff.1 hn.2
  obtain ⟨ml, hml⟩ := Dbl.isFinite_iff.1 hm.1
  obtain ⟨mu, hmu⟩ := Dbl.isFinite_iff.1 hm.2
  have hlu : al ≤ au := by
    rw [hal, hau] at ha
    simpa [Dbl.le] using ha
  have hluR : (al : ℝ) ≤ au := by exact_mod_cast hlu
  -- the promoted `-1` encloses `-1`
  have hy : encloses (assign nextafter (fin (-1))) (-1) := by
    simpa using assign_encloses hstep (-1)
  have hmfin : (assign nextafter (fin (-1))).min.isFinite = true ∧
      (assign nextafter (fin (-1))).max.isFinite = true := hm
  have hml2 : (assign nextafter (fin (-1))).min = fin ml := hml
  have hmu2 : (assign nextafter (fin (-1))).max = fin mu := hmu
  have hy1 : (ml : ℝ) ≤ -1 := by
    have h := hy.1; rw [hml2] at h; exact h
  have hy2 : (-1 : ℝ) ≤ mu := by
    have h := hy.2; rw [hmu2] at h; exact h
  -- `-a` encloses `-al` and `-au`
  have hxl : encloses a (al : ℝ) := by
    constructor
    · rw [hal]; exact le_refl _
    · rw [hau]; exact hluR
  have hxu : encloses a (au : ℝ) := by
    constructor
    · rw [hal]; exact hluR
    · rw [hau]; exact le_refl _
  have e1 : encloses (opNeg nextafter a) ((al : ℝ) * -1) := by
    rw [opNeg_eq_opMul]; exact opMul_encloses hstep hafin hmfin hxl hy
  have e2 : encloses (opNeg nextafter a) ((au : ℝ) * -1) := by
    rw [opNeg_eq_opMul]; exact opMul_encloses hstep hafin hmfin hxu hy
  have b1 : (nl : ℝ) ≤ (al : ℝ) * -1 := by
    have h := e1.1; rw [hnl] at h; exact h
  have b2 : (al : ℝ) * -1 ≤ nu := by
    have h := e1.2; rw [hnu] at h; exact h
  have b3 : (nl : ℝ) ≤ (au : ℝ) * -1 := by
    have h := e2.1; rw [hnl] at h; exact h
  have b4 : (au : ℝ) * -1 ≤ nu := by
    have h := e2.2; rw [hnu] at h; exact h
  -- the second negation
  obtain ⟨⟨p, hp, hpr⟩, _⟩ :=
    times_corner_bounds (a := opNeg nextafter a) (b := assign nextafter (fin (-1)))
      hnl hnu hml2 hmu2 b1 b2 hy1 hy2
  obtain ⟨_, ⟨q, hq, hrq⟩⟩ :=
    times_corner_bounds (a := opNeg nextafter a) (b := assign nextafter (fin (-1)))
      hnl hnu hml2 hmu2 b3 b4 hy1 hy2
  have hp2 : p ≤ al := by
    have : (p : ℝ) ≤ al := by linarith
    exact_mod_cast this
  have hq2 : au ≤ q := by
    have : (au : ℝ) ≤ q := by linarith
    exact_mod_cast this
  refine ⟨times_neg_one_twice a.typical, ?_, ?_⟩
  · rw [hal]
    exact Dbl.lt_of_lt_of_le
      (apply2_min_lt_corner hstep times (opNeg nextafter a) (assign nextafter (fin (-1))) hp)
      ((Dbl.le_fin_iff _ _).2 hp2)
  · rw [hau]
    exact Dbl.lt_of_le_of_lt ((Dbl.le_fin_iff _ _).2 hq2)
      (apply2_max_gt_corner hstep times (opNeg nextafter a) (assign nextafter (fin (-1))) hq)

/-- C9 amended, at `a = (min 1, typical 3/2, max 2)` with binary64 stepping. -/
theorem C9_negation_never_narrows_witness :
    (opNeg nextafter64 (opNeg nextafter64 (mk3 (fin 1) (fin (3 / 2)) (fin 2)))).typical
      = fin (3 / 2) ∧
    Dbl.lt (opNeg nextafter64 (opNeg nextafter64 (mk3 (fin 1) (fin (3 / 2)) (fin 2)))).min
      (fin 1) = true ∧
    Dbl.lt (fin 2)
      (opNeg nextafter64 (opNeg nextafter64 (mk3 (fin 1) (fin (3 / 2)) (fin 2)))).max = true :=
  C9_negation_never_narrows nextafter64 nextafter64_strict (mk3 (fin 1) (fin (3 / 2)) (fin 2))
    (by decide) (by decide!) (by decide!) (by decide!)

/-- C10, as stated, fails at an infinite bound: with binary64 stepping, the
identity applied to `a = (min -infinity, typical 4, max +infinity)`, which
`operator/` returns, gives `a` back; neither bound is strictly further
out. -/
theorem C10_identity_apply_counterexample :
    Dbl.le (mk3 ninf (fin 4) pinf).min (mk3 ninf (fin 4) pinf).max = true ∧
    apply nextafter64 (fun x => x) (mk3 ninf (fin 4) pinf) = mk3 ninf (fin 4) pinf ∧
    Dbl.lt (apply nextafter64 (fun x => x) (mk3 ninf (fin 4) pinf)).min
      (mk3 ninf (fin 4) pinf).min = false ∧
    Dbl.gt (apply nextafter64 (fun x => x) (mk3 ninf (fin 4) pinf)).max
      (mk3 ninf (fin 4) pinf).max = false := by
  decide!

/-- C10, amended: the identity through unary `apply` never narrows, and
widens wherever a step is left.  Under the stepping contract of `nextafter`,
for every `a` with `a.min <= a.max`, the result `r` of applying the identity
has `r.min = down(a.min)`, `r.max = up(a.max)`, `r.min <= a.min`,
`r.max >= a.max` and `r.typical = a.typical`; `r.min < a.min` unless `a.min`
is `-infinity`, which stays, and `r.max > a.max` unless `a.max` is
`+infinity`, which stays. -/
theorem C10_identity_apply_never_narrows (nextafter : Dbl → Dbl → Dbl)
    (hout : OutwardStep nextafter) (a : bounded_double)
    (ha : Dbl.le a.min a.max = true) :
    (Dbl.le (apply nextafter (fun x => x) a).min a.min = true ∧
      Dbl.ge (apply nextafter (fun x => x) a).max a.max = true) ∧
    ((a.min ≠ ninf → Dbl.lt (apply nextafter (fun x => x) a).min a.min = true) ∧
      (a.max ≠ pinf → Dbl.gt (apply nextafter (fun x => x) a).max a.max = true)) ∧
    ((a.min = ninf → (apply nextafter (fun x => x) a).min = ninf) ∧
      (a.max = pinf → (apply nextafter (fun x => x) a).max = pinf)) ∧
    ((apply nextafter (fun x => x) a).min = down nextafter a.min ∧
      (apply nextafter (fun x => x) a).max = up nextafter a.max) ∧
    (apply nextafter (fun x => x) a).typical = a.typical := by
  have hl : a.min ≠ nan := Dbl.ne_nan_of_le_left ha
  have hu : a.max ≠ nan := Dbl.ne_nan_of_le_right ha
  have hmin : (apply nextafter (fun x => x) a).min = down nextafter a.min := by
    show down nextafter (Dbl.min a.min a.max) = down nextafter a.min
    rw [Dbl.min_eq_left_of_le ha]
  have hmax : (apply nextafter (fun x => x) a).max = up nextafter a.max := by
    show up nextafter (Dbl.max a.min a.max) = up nextafter a.max
    rw [Dbl.max_eq_right_of_le ha]
  rw [hmin, hmax]
  refine ⟨⟨down_le_self hout hl, self_le_up hout hu⟩, ⟨?_, ?_⟩, ⟨?_, ?_⟩, ⟨rfl, rfl⟩, rfl⟩
  · intro h
    have k := (hout a.min hl).1
    rwa [if_neg h] at k
  · intro h
    have k := (hout a.max hu).2
    rwa [if_neg h] at k
  · intro h
    have k := (hout a.min hl).1
    rw [if_pos h] at k
    rw [k]
  · intro h
    have k := (hout a.max hu).2
    rw [if_pos h] at k
    rw [k]

/-- C10 amended, at `a = (min 1, typical 3/2, max +infinity)` with binary64
stepping: the result is `(1 - 2^-53, 3/2, +infinity)`. -/
theorem C10_identity_apply_never_narrows_witness :
    OutwardStep nextafter64 ∧
    apply nextafter64 (fun x => x) (mk3 (fin 1) (fin (3 / 2)) pinf)
      = mk3 (fin (1 - 2 ^ (-53 : ℤ))) (fin (3 / 2)) pinf ∧
    Dbl.lt (apply nextafter64 (fun x => x) (mk3 (fin 1) (fin (3 / 2)) pinf)).min (fin 1)
      = true ∧
    (apply nextafter64 (fun x => x) (mk3 (fin 1) (fin (3 / 2)) pinf)).max = pinf := by
  have h := C10_identity_apply_never_narrows nextafter64 nextafter64_outward
    (mk3 (fin 1) (fin (3 / 2)) pinf) (by decide!)
  exact ⟨nextafter64_outward, by decide!, h.2.1.1 (by decide), h.2.2.1.2 rfl⟩

/-- C12: `typical` tracks plain arithmetic.  For all `a`, `b` the typical of
`a + b`, `a - b`, `a * b`, `a / b` (in either branch of `operator/`) is
`a.typical + b.typical`, `a.typical - b.typical`, `a.typical * b.typical`,
`a.typical / b.typical`; for a scalar `v` the typical of `a op v` is
`a.typical op v`; and replacing `min` and `max` of the operands leaves the
typical of every result unchanged. -/
theorem C12_typical_tracks_arithmetic (nextafter : Dbl → Dbl → Dbl)
    (a b : bounded_double) (v l u l2 u2 : Dbl) :
    ((opAdd nextafter a b).typical = Dbl.add a.typical b.typical ∧
      (opSub nextafter a b).typical = Dbl.sub a.typical b.typical ∧
      (opMul nextafter a b).typical = Dbl.mul a.typical b.typical ∧
      (opDiv nextafter a b).typical = Dbl.div a.typical b.typical) ∧
    ((opAddScalar nextafter a v).typical = Dbl.add a.typical v ∧
      (opSubScalar nextafter a v).typical = Dbl.sub a.typical v ∧
      (opMulScalar nextafter a v).typical = Dbl.mul a.typical v ∧
      (opDivScalar nextafter a v).typical = Dbl.div a.typical v) ∧
    ((opAdd nextafter (mk3 l a.typical u) (mk3 l2 b.typical u2)).typical
        = (opAdd nextafter a b).typical ∧
      (opSub nextafter (mk3 l a.typical u) (mk3 l2 b.typical u2)).typical
        = (opSub nextafter a b).typical ∧
      (opMul nextafter (mk3 l a.typical u) (mk3 l2 b.typical u2)).typical
        = (opMul nextafter a b).typical ∧
      (opDiv nextafter (mk3 l a.typical u) (mk3 l2 b.typical u2)).typical
        = (opDiv nextafter a b).typical ∧
      (opAddScalar nextafter (mk3 l a.typical u) v).typical
        = (opAddScalar nextafter a v).typical ∧
      (opSubScalar nextafter (mk3 l a.typical u) v).typical
        = (opSubScalar nextafter a v).typical ∧
      (opMulScalar nextafter (mk3 l a.typical u) v).typical
        = (opMulScalar nextafter a v).typical ∧
      (opDivScalar nextafter (mk3 l a.typical u) v).typical
        = (opDivScalar nextafter a v).typical) := by
  have hdiv : ∀ x y : bounded_double,
      (opDiv nextafter x y).typical = Dbl.div x.typical y.typical := by
    intro x y
    unfold opDiv
    split <;> rfl
  refine ⟨⟨rfl, rfl, rfl, hdiv a b⟩, ⟨rfl, rfl, rfl, rfl⟩,
    ⟨rfl, rfl, rfl, ?_, rfl, rfl, rfl, rfl⟩⟩
  rw [hdiv, hdiv]
  rfl

/-- C16: compound assignment agrees with the pure operator.  For all `a`, `b`
the receiver after `a += b`, `a -= b`, `a *= b`, `a /= b` holds the value
`a + b`, `a - b`, `a * b`, `a / b` computed from the receiver's prior state; in
particular, when `b.min <= 0 <= b.max`, after `a /= b` the bounds are
`-infinity` and `+infinity` and the typical is `a.typical / b.typical`. -/
theorem C16_compound_assignment (nextafter : Dbl → Dbl → Dbl) (a b : bounded_double) :
    (opAddAssign nextafter a b = opAdd nextafter a b ∧
      opSubAssign nextafter a b = opSub nextafter a b ∧
      opMulAssign nextafter a b = opMul nextafter a b ∧
      opDivAssign nextafter a b = opDiv nextafter a b) ∧
    (Dbl.le b.min (fin 0) = true → Dbl.le (fin 0) b.max = true →
      opDivAssign nextafter a b = mk3 ninf (Dbl.div a.typical b.typical) pinf) := by
  refine ⟨⟨rfl, rfl, rfl, ?_⟩, ?_⟩
  · unfold opDivAssign opDiv
    split <;> rfl
  · intro h1 h2
    simp [opDivAssign, Dbl.ge, h1, h2, mk3]

/-- C16 at `a = promote(1)` and the divisor `(min -1/2, typical 1/4, max 1/2)`
with binary64 stepping. -/
theorem C16_compound_assignment_witness :
    opDivAssign nextafter64 (assign nextafter64 (fin 1))
        (mk3 (fin (-1 / 2)) (fin (1 / 4)) (fin (1 / 2)))
      = mk3 ninf (fin 4) pinf := by
  have h := (C16_compound_assignment nextafter64 (assign nextafter64 (fin 1))
    (mk3 (fin (-1 / 2)) (fin (1 / 4)) (fin (1 / 2)))).2 (by decide!) (by decide!)
  have ht : Dbl.div (assign nextafter64 (fin 1)).typical
      (mk3 (fin (-1 / 2)) (fin (1 / 4)) (fin (1 / 2))).typical = fin 4 := by decide!
  rw [h, ht]

/-- C17: scalar division has no zero-straddle check.  For every `a` and every
scalar `v`, `a / v` and the receiver after `a /= v` are binary `apply` of
ordinary division to `a` and `promote(v)`.  Under the stepping contract
`promote(0)` has `min <= 0 <= max`, so `a / promote(0)` through the
value-to-value operator is `(-infinity, a.typical / 0, +infinity)`, while
`a / 0` is the four-corner result: with binary64 stepping
`promote(0) / 0 = (-1 - 2^-52, NaN, 1 + 2^-52)` and
`promote(0) / promote(0) = (-infinity, NaN, +infinity)`. -/
theorem C17_scalar_division_unchecked (nextafter : Dbl → Dbl → Dbl) (a : bounded_double)
    (v : Dbl) :
    (opDivScalar nextafter a v = apply2 nextafter divide a (assign nextafter v) ∧
      opDivAssignScalar nextafter a v = apply2 nextafter divide a (assign nextafter v)) ∧
    (StrictStep nextafter →
      (Dbl.le (assign nextafter (fin 0)).min (fin 0) = true ∧
        Dbl.ge (assign nextafter (fin 0)).max (fin 0) = true) ∧
      opDiv nextafter a (assign nextafter (fin 0))
        = mk3 ninf (Dbl.div a.typical (fin 0)) pinf ∧
      opDivScalar nextafter a (fin 0)
        = apply2 nextafter divide a (assign nextafter (fin 0))) ∧
    (opDivScalar nextafter64 (assign nextafter64 (fin 0)) (fin 0)
        = mk3 (fin (-1 - 2 ^ (-52 : ℤ))) nan (fin (1 + 2 ^ (-52 : ℤ))) ∧
      opDiv nextafter64 (assign nextafter64 (fin 0)) (assign nextafter64 (fin 0))
        = mk3 ninf nan pinf) := by
  refine ⟨⟨rfl, rfl⟩, ?_, ?_⟩
  · intro hstep
    have h1 : Dbl.le (assign nextafter (fin 0)).min (fin 0) = true :=
      Dbl.le_of_lt (hstep 0).1
    have h2 : Dbl.le (fin 0) (assign nextafter (fin 0)).max = true :=
      Dbl.le_of_lt (hstep 0).2
    refine ⟨⟨h1, h2⟩, ?_, rfl⟩
    simp [opDiv, Dbl.ge, h1, h2, mk3]
    rfl
  · decide!

/-- C17 at `a = promote(0)`, `v = 0` with binary64 stepping. -/
theorem C17_scalar_division_unchecked_witness :
    opDiv nextafter64 (assign nextafter64 (fin 0)) (assign nextafter64 (fin 0))
        = mk3 ninf (Dbl.div (assign nextafter64 (fin 0)).typical (fin 0)) pinf ∧
    opDivScalar nextafter64 (assign nextafter64 (fin 0)) (fin 0)
        = apply2 nextafter64 divide (assign nextafter64 (fin 0))
            (assign nextafter64 (fin 0)) :=
  ((C17_scalar_division_unchecked nextafter64 (assign nextafter64 (fin 0)) (fin 0)).2.1
    nextafter64_strict).2

/-- C18: `+` and `*` are commutative.  For all `a`, `b`, `a + b` and `b + a`
have the same three fields, and so have `a * b` and `b * a`, although the loop
of binary `apply` visits the corners in another order. -/
theorem C18_add_mul_commutative (nextafter : Dbl → Dbl → Dbl) (a b : bounded_double) :
    opAdd nextafter a b = opAdd nextafter b a ∧
    opMul nextafter a b = opMul nextafter b a :=
  ⟨apply2_comm nextafter plus plus_comm a b, apply2_comm nextafter times times_comm a b⟩

/-- C11, as stated, fails for a function that returns NaN: with the finite
operand `(min 0, typical 0, max 0)`, unary `apply` of `f(x) = x / x` returns
`(NaN, NaN, NaN)`, and binary `apply` of `f(x, y) = x / y` with that operand
on both sides finds no corner value below `+infinity` or above `-infinity` and
returns the sentinels, `(+infinity, NaN, -infinity)`: `min <= max` is false
in both. -/
theorem C11_lower_le_upper_counterexample :
    (apply nextafter64 (fun x => Dbl.div x x) (mk3 (fin 0) (fin 0) (fin 0))
        = mk3 nan nan nan ∧
      Dbl.le (apply nextafter64 (fun x => Dbl.div x x) (mk3 (fin 0) (fin 0) (fin 0))).min
        (apply nextafter64 (fun x => Dbl.div x x) (mk3 (fin 0) (fin 0) (fin 0))).max
        = false) ∧
    (apply2 nextafter64 divide (mk3 (fin 0) (fin 0) (fin 0)) (mk3 (fin 0) (fin 0) (fin 0))
        = mk3 pinf nan ninf ∧
      Dbl.le
        (apply2 nextafter64 divide (mk3 (fin 0) (fin 0) (fin 0))
          (mk3 (fin 0) (fin 0) (fin 0))).min
        (apply2 nextafter64 divide (mk3 (fin 0) (fin 0) (fin 0))
          (mk3 (fin 0) (fin 0) (fin 0))).max
        = false) := by
  decide!

/-- C11, amended: `lower <= upper` wherever a sampled value is not NaN.
Under the stepping contract of `nextafter`: the promotion of every finite
scalar has `min <= max`; unary `apply` of any `f` to any `a` with `f(a.min)`
not NaN has `min <= max`; binary `apply` of any `f` to any `a`, `b` with a
corner value that is not NaN has `min <= max`; for operands with finite
bounds, in any order (also `min > max`), `a + b`, `a - b`, `a * b` and `a / b`
in either branch have `min <= max`, and so has `-a` when the promoted `-1` has
a finite bound, as it has with binary64 stepping. -/
theorem C11_lower_le_upper (nextafter : Dbl → Dbl → Dbl) (hout : OutwardStep nextafter) :
    (∀ v : ℚ, Dbl.le (assign nextafter (fin v)).min (assign nextafter (fin v)).max = true) ∧
    (∀ (f : Dbl → Dbl) (a : bounded_double), f a.min ≠ nan →
      Dbl.le (apply nextafter f a).min (apply nextafter f a).max = true) ∧
    (∀ (f : Dbl → Dbl → Dbl) (a b : bounded_double),
      (∃ c ∈ corners f a b, c ≠ nan) →
      Dbl.le (apply2 nextafter f a b).min (apply2 nextafter f a b).max = true) ∧
    (∀ a b : bounded_double,
      a.min.isFinite = true ∧ a.max.isFinite = true →
      b.min.isFinite = true ∧ b.max.isFinite = true →
      Dbl.le (opAdd nextafter a b).min (opAdd nextafter a b).max = true ∧
      Dbl.le (opSub nextafter a b).min (opSub nextafter a b).max = true ∧
      Dbl.le (opMul nextafter a b).min (opMul nextafter a b).max = true ∧
      Dbl.le (opDiv nextafter a b).min (opDiv nextafter a b).max = true) ∧
    (∀ a : bounded_double,
      a.min.isFinite = true ∧ a.max.isFinite = true →
      ((down nextafter (fin (-1))).isFinite = true ∨
          (up nextafter (fin (-1))).isFinite = true →
        Dbl.le (opNeg nextafter a).min (opNeg nextafter a).max = true) ∧
      Dbl.le (opNeg nextafter64 a).min (opNeg nextafter64 a).max = true) := by
  have hstep := outward_strict hout
  have key : ∀ (f : Dbl → Dbl → Dbl) (a b : bounded_double),
      (∃ c ∈ corners f a b, c ≠ nan) →
      Dbl.le (apply2 nextafter f a b).min (apply2 nextafter f a b).max = true :=
    fun f a b hc => apply2_min_le_max hout f a b hc
  refine ⟨?_, ?_, key, ?_, ?_⟩
  · intro v
    exact Dbl.le_of_lt (Dbl.lt_trans (hstep v).1 (hstep v).2)
  · intro f a hl
    show Dbl.le (down nextafter (Dbl.min (f a.min) (f a.max)))
      (up nextafter (Dbl.max (f a.min) (f a.max))) = true
    by_cases hr : f a.max = nan
    · have e1 : Dbl.min (f a.min) (f a.max) = f a.min := by
        rw [hr]; simp [Dbl.min, Dbl.lt]
      have e2 : Dbl.max (f a.min) (f a.max) = f a.min := by
        rw [hr]
        cases f a.min <;> simp [Dbl.max, Dbl.lt]
      rw [e1, e2]
      exact Dbl.le_trans (down_le_self hout hl) (self_le_up hout hl)
    · obtain ⟨em, m1, m2⟩ := dmin_spec hl hr
      obtain ⟨eM, M1, M2⟩ := dmax_spec hl hr
      have hm : Dbl.min (f a.min) (f a.max) ≠ nan := Dbl.ne_nan_of_le_left m1
      have hM : Dbl.max (f a.min) (f a.max) ≠ nan := Dbl.ne_nan_of_le_right M1
      exact Dbl.le_trans (down_le_self hout hm)
        (Dbl.le_trans (Dbl.le_trans m1 M1) (self_le_up hout hM))
  · intro a b hafin hbfin
    obtain ⟨al, hal⟩ := Dbl.isFinite_iff.1 hafin.1
    obtain ⟨au, hau⟩ := Dbl.isFinite_iff.1 hafin.2
    obtain ⟨bl, hbl⟩ := Dbl.isFinite_iff.1 hbfin.1
    obtain ⟨bu, hbu⟩ := Dbl.isFinite_iff.1 hbfin.2
    refine ⟨?_, ?_, ?_, ?_⟩
    · exact key plus a b
        ⟨fin (au + bu), by simp [corners, hau, hbu, plus, Dbl.add], by simp⟩
    · exact key minus a b
        ⟨fin (au - bu), by simp [corners, hau, hbu, minus, Dbl.sub], by simp⟩
    · exact key times a b
        ⟨fin (au * bu), by simp [corners, hau, hbu, times, Dbl.mul], by simp⟩
    · unfold opDiv
      split
      · rfl
      · next hc =>
        have hnz : bl ≠ 0 ∨ bu ≠ 0 := by
          by_contra hcon
          push_neg at hcon
          apply hc
          rw [hbl, hbu, hcon.1, hcon.2]
          decide
        rcases hnz with h | h
        · exact key divide a b
            ⟨fin (au / bl), by simp [corners, hau, hbl, divide, Dbl.div, h], by simp⟩
        · exact key divide a b
            ⟨fin (au / bu), by simp [corners, hau, hbu, divide, Dbl.div, h], by simp⟩
  · intro a hafin
    have hl : a.min ≠ nan := ne_nan_of_isFinite hafin.1
    have hu : a.max ≠ nan := ne_nan_of_isFinite hafin.2
    exact ⟨fun hm => key times a (assign nextafter (fin (-1))) (opNeg_corner hout a hl hu hm),
      apply2_min_le_max nextafter64_outward times a (assign nextafter64 (fin (-1)))
        (opNeg_corner nextafter64_outward a hl hu (Or.inl promoted_neg_one_finite.1))⟩

/-- C11 amended, with binary64 stepping at operands built with `min > max`:
`a = (min 5, typical 0, max 1)`, `b = (min 3, typical 0, max -2)`. -/
theorem C11_lower_le_upper_witness :
    OutwardStep nextafter64 ∧
    Dbl.gt (mk3 (fin 5) (fin 0) (fin 1)).min (mk3 (fin 5) (fin 0) (fin 1)).max = true ∧
    Dbl.le (opAdd nextafter64 (mk3 (fin 5) (fin 0) (fin 1)) (mk3 (fin 3) (fin 0) (fin (-2)))).min
      (opAdd nextafter64 (mk3 (fin 5) (fin 0) (fin 1)) (mk3 (fin 3) (fin 0) (fin (-2)))).max
      = true ∧
    Dbl.le (opDiv nextafter64 (mk3 (fin 5) (fin 0) (fin 1)) (mk3 (fin 3) (fin 0) (fin (-2)))).min
      (opDiv nextafter64 (mk3 (fin 5) (fin 0) (fin 1)) (mk3 (fin 3) (fin 0) (fin (-2)))).max
      = true := by
  have h := (C11_lower_le_upper nextafter64 nextafter64_outward).2.2.2.1
    (mk3 (fin 5) (fin 0) (fin 1)) (mk3 (fin 3) (fin 0) (fin (-2))) (by decide) (by decide)
  exact ⟨nextafter64_outward, by decide!, h.1, h.2.2.2⟩

/-- C13, as stated, fails.  With binary64 stepping:
`a = b = (min -1, typical 0, max 1)` both have `min <= typical <= max`, `b`
straddles zero, and `a / b` is `(-infinity, NaN, +infinity)`, whose typical
`0 / 0` is below and above nothing; and `(min 0, typical 0, max 0)` times
`(min -infinity, typical 4, max +infinity)`, which `operator/` returns, has
the typical `0` and every corner product NaN, so that the loop keeps its
sentinels: `(+infinity, 0, -infinity)`. -/
theorem C13_typical_enclosed_counterexample :
    (typicalEnclosed (mk3 (fin (-1)) (fin 0) (fin 1)) ∧
      opDiv nextafter64 (mk3 (fin (-1)) (fin 0) (fin 1)) (mk3 (fin (-1)) (fin 0) (fin 1))
        = mk3 ninf nan pinf ∧
      ¬ typicalEnclosed
        (opDiv nextafter64 (mk3 (fin (-1)) (fin 0) (fin 1))
          (mk3 (fin (-1)) (fin 0) (fin 1)))) ∧
    (typicalEnclosed (mk3 (fin 0) (fin 0) (fin 0)) ∧
      typicalEnclosed (mk3 ninf (fin 4) pinf) ∧
      opMul nextafter64 (mk3 (fin 0) (fin 0) (fin 0)) (mk3 ninf (fin 4) pinf)
        = mk3 pinf (fin 0) ninf ∧
      ¬ typicalEnclosed
        (opMul nextafter64 (mk3 (fin 0) (fin 0) (fin 0)) (mk3 ninf (fin 4) pinf))) := by
  have h : opDiv nextafter64 (mk3 (fin (-1)) (fin 0) (fin 1)) (mk3 (fin (-1)) (fin 0) (fin 1))
      = mk3 ninf nan pinf := by decide!
  have k : opMul nextafter64 (mk3 (fin 0) (fin 0) (fin 0)) (mk3 ninf (fin 4) pinf)
      = mk3 pinf (fin 0) ninf := by decide!
  refine ⟨⟨⟨by decide!, by decide!⟩, h, ?_⟩, ⟨by decide!, by decide!⟩,
    ⟨by decide!, by decide!⟩, k, ?_⟩
  · rw [h]
    intro hc
    exact absurd hc.1 (by decide)
  · rw [k]
    intro hc
    exact absurd hc.1 (by decide)

/-- C13, amended: preservation of `min <= typical <= max` where the typical
is not NaN and a corner value is not NaN.  Under the stepping contract of
`nextafter`, for `a`, `b` that each satisfy `min <= typical <= max`: so does
each of `a + b`, `a - b` whose typical is not NaN; so does `a * b` when its
typical is not NaN and one of its four corner products is not NaN; so does
`a / b` when its typical is not NaN and either `b.min <= 0 <= b.max`, or
`b.min > 0` or `b.max < 0` and one of the four corner quotients is not NaN;
so does `-a` when one of the four corner products of `a` and the promoted
`-1` is not NaN, as is always the case with binary64 stepping; so does
`a.apply(f)` for every `f` non-decreasing or non-increasing on
`[a.min, a.max]`; and so does the promotion of every finite scalar. -/
theorem C13_typical_enclosed_preserved (nextafter : Dbl → Dbl → Dbl)
    (hout : OutwardStep nextafter) (a b : bounded_double)
    (ha : typicalEnclosed a) (hb : typicalEnclosed b) :
    (((opAdd nextafter a b).typical ≠ nan → typicalEnclosed (opAdd nextafter a b)) ∧
      ((opSub nextafter a b).typical ≠ nan → typicalEnclosed (opSub nextafter a b)) ∧
      ((opMul nextafter a b).typical ≠ nan → (∃ c ∈ corners times a b, c ≠ nan) →
        typicalEnclosed (opMul nextafter a b))) ∧
    ((opDiv nextafter a b).typical ≠ nan →
      Dbl.le b.min (fin 0) = true ∧ Dbl.le (fin 0) b.max = true →
      typicalEnclosed (opDiv nextafter a b)) ∧
    ((opDiv nextafter a b).typical ≠ nan →
      Dbl.gt b.min (fin 0) = true ∨ Dbl.lt b.max (fin 0) = true →
      (∃ c ∈ corners divide a b, c ≠ nan) →
      typicalEnclosed (opDiv nextafter a b)) ∧
    (((∃ c ∈ corners times a (assign nextafter (fin (-1))), c ≠ nan) →
        typicalEnclosed (opNeg nextafter a)) ∧
      typicalEnclosed (opNeg nextafter64 a)) ∧
    (∀ f : Dbl → Dbl,
      NonDecreasingOn f a.min a.max ∨ NonIncreasingOn f a.min a.max →
      typicalEnclosed (apply nextafter f a)) ∧
    (∀ v : ℚ, typicalEnclosed (assign nextafter (fin v))) := by
  have hstep := outward_strict hout
  refine ⟨⟨?_, ?_, ?_⟩, ?_, ?_, ?_, ?_, ?_⟩
  · intro hn
    obtain ⟨hl, hu⟩ := plus_corner_between a b ha.1 ha.2 hb.1 hb.2 hn
    exact apply2_between hout plus a b hl hu
  · intro hn
    obtain ⟨hl, hu⟩ := minus_corner_between a b ha.1 ha.2 hb.1 hb.2 hn
    exact apply2_between hout minus a b hl hu
  · intro hn hc
    obtain ⟨hl, hu⟩ := times_corner_between a b ha.1 ha.2 hb.1 hb.2 hn hc
    exact apply2_between hout times a b hl hu
  · intro hn h0
    have hr : opDiv nextafter a b = mk3 ninf (Dbl.div a.typical b.typical) pinf := by
      simp [opDiv, Dbl.ge, h0.1, h0.2, mk3]
    rw [hr] at hn ⊢
    exact (typicalEnclosed_unbounded _).2 hn
  · intro hn h0 hc
    rw [opDiv_of_excludes nextafter a b h0] at hn ⊢
    obtain ⟨hl, hu⟩ := divide_corner_between a b ha.1 ha.2 hb.1 hb.2 h0 hn hc
    exact apply2_between hout divide a b hl hu
  · exact ⟨fun hc => opNeg_typicalEnclosed hout a ha hc,
      opNeg_typicalEnclosed nextafter64_outward a ha
        (opNeg_corner nextafter64_outward a (Dbl.ne_nan_of_le_left ha.1)
          (Dbl.ne_nan_of_le_right ha.2) (Or.inl promoted_neg_one_finite.1))⟩
  · intro f hmono
    exact apply_mono_bounds_ext hout f a hmono a.typical ha.1 ha.2
  · intro v
    exact ⟨Dbl.le_of_lt (hstep v).1, Dbl.le_of_lt (hstep v).2⟩

/-- C13 amended, at `a = (min 1, typical 3/2, max +infinity)`,
`b = promote(2)` with binary64 stepping. -/
theorem C13_typical_enclosed_preserved_witness :
    OutwardStep nextafter64 ∧
    typicalEnclosed (mk3 (fin 1) (fin (3 / 2)) pinf) ∧
    typicalEnclosed (assign nextafter64 (fin 2)) ∧
    typicalEnclosed (opMul nextafter64 (mk3 (fin 1) (fin (3 / 2)) pinf)
      (assign nextafter64 (fin 2))) ∧
    typicalEnclosed (opDiv nextafter64 (mk3 (fin 1) (fin (3 / 2)) pinf)
      (assign nextafter64 (fin 2))) := by
  have ha : typicalEnclosed (mk3 (fin 1) (fin (3 / 2)) pinf) :=
    ⟨by decide!, by decide!⟩
  have hb : typicalEnclosed (assign nextafter64 (fin 2)) := ⟨by decide!, by decide!⟩
  have h := C13_typical_enclosed_preserved nextafter64 nextafter64_outward
    (mk3 (fin 1) (fin (3 / 2)) pinf) (assign nextafter64 (fin 2)) ha hb
  exact ⟨nextafter64_outward, ha, hb,
    h.1.2.2 (by decide!) ⟨pinf, by decide!, by decide⟩,
    h.2.2.1 (by decide!) (Or.inl (by decide!)) ⟨pinf, by decide!, by decide⟩⟩

/-- C14: silent failure under a violated assumption.  With binary64 stepping,
for `a = (min -1, typical 0, max 1)`, which has `min <= typical <= max`, and
`f(x) = x * x`, which is neither non-decreasing nor non-increasing on
`[-1, 1]`, unary `apply` returns `(1 - 2^-53, 0, 1 + 2^-52)`: the bounds do
not enclose `f(0) = 0` and the result does not have
`min <= typical <= max`. -/
theorem C14_silent_failure_nonmonotonic :
    typicalEnclosed (mk3 (fin (-1)) (fin 0) (fin 1)) ∧
    (¬ NonDecreasingOn (fun x => Dbl.mul x x) (fin (-1)) (fin 1) ∧
      ¬ NonIncreasingOn (fun x => Dbl.mul x x) (fin (-1)) (fin 1)) ∧
    apply nextafter64 (fun x => Dbl.mul x x) (mk3 (fin (-1)) (fin 0) (fin 1))
      = mk3 (fin (1 - 2 ^ (-53 : ℤ))) (fin 0) (fin (1 + 2 ^ (-52 : ℤ))) ∧
    (∃ x : Dbl, Dbl.le (mk3 (fin (-1)) (fin 0) (fin 1)).min x = true ∧
      Dbl.le x (mk3 (fin (-1)) (fin 0) (fin 1)).max = true ∧
      ¬ (Dbl.le (apply nextafter64 (fun x => Dbl.mul x x)
            (mk3 (fin (-1)) (fin 0) (fin 1))).min (Dbl.mul x x) = true ∧
          Dbl.le (Dbl.mul x x) (apply nextafter64 (fun x => Dbl.mul x x)
            (mk3 (fin (-1)) (fin 0) (fin 1))).max = true)) ∧
    ¬ typicalEnclosed
      (apply nextafter64 (fun x => Dbl.mul x x) (mk3 (fin (-1)) (fin 0) (fin 1))) := by
  have hr : apply nextafter64 (fun x => Dbl.mul x x) (mk3 (fin (-1)) (fin 0) (fin 1))
      = mk3 (fin (1 - 2 ^ (-53 : ℤ))) (fin 0) (fin (1 + 2 ^ (-52 : ℤ))) := by decide!
  refine ⟨⟨by decide!, by decide!⟩, ⟨?_, ?_⟩, hr, ⟨fin 0, by decide!, by decide!, ?_⟩, ?_⟩
  · intro h
    exact absurd (h (fin (-1)) (fin 0) (by decide!) (by decide!) (by decide!)) (by decide!)
  · intro h
    exact absurd (h (fin 0) (fin 1) (by decide!) (by decide!) (by decide!)) (by decide!)
  · rw [hr]
    intro hc
    exact absurd hc.1 (by decide!)
  · rw [hr]
    intro hc
    exact absurd hc.1 (by decide!)

/-- C15: binary `apply` computes the formula of the specification.  Under the
stepping contract with order-preserving steps, for every `f` and all `a`, `b`
with finite corner values: the loop returns the value of the formula,
`min = down(least of the four corner values)`,
`max = up(greatest of the four)`, `typical = f(a.typical, b.typical)`; the
loop passes to `f` the four corner combinations once each, and each pass is
one update of the running minimum and maximum; the sentinels `+infinity` and
`-infinity` are not the returned bounds; and the nested `std::min` /
`std::max` of the formula are a least and a greatest corner value. -/
theorem C15_binary_apply_formula (nextafter : Dbl → Dbl → Dbl)
    (hstep : StrictStep nextafter) (hmono : MonoStep nextafter)
    (f : Dbl → Dbl → Dbl) (a b : bounded_double)
    (hfin : ∀ c ∈ corners f a b, c.isFinite = true) :
    apply2 nextafter f a b = apply2Spec nextafter f a b ∧
    ((List.range (1 <<< 2)).map (cornerArgs a b)
        = [(a.max, b.max), (a.min, b.max), (a.max, b.min), (a.min, b.min)] ∧
      ∀ (acc : Dbl × Dbl) (type : Nat), applyStep nextafter f a b acc type
        = (stepMin (down nextafter (f (cornerArgs a b type).1 (cornerArgs a b type).2)) acc.1,
           stepMax (up nextafter (f (cornerArgs a b type).1 (cornerArgs a b type).2)) acc.2)) ∧
    (Dbl.lt (apply2 nextafter f a b).min pinf = true ∧
      Dbl.lt ninf (apply2 nextafter f a b).max = true) ∧
    ((Dbl.min (Dbl.min (f a.min b.min) (f a.min b.max)) (Dbl.min (f a.max b.min) (f a.max b.max))
          ∈ corners f a b ∧
        ∀ c ∈ corners f a b, Dbl.le (Dbl.min (Dbl.min (f a.min b.min) (f a.min b.max))
          (Dbl.min (f a.max b.min) (f a.max b.max))) c = true) ∧
      (Dbl.max (Dbl.max (f a.min b.min) (f a.min b.max)) (Dbl.max (f a.max b.min) (f a.max b.max))
          ∈ corners f a b ∧
        ∀ c ∈ corners f a b, Dbl.le c (Dbl.max (Dbl.max (f a.min b.min) (f a.min b.max))
          (Dbl.max (f a.max b.min) (f a.max b.max))) = true)) := by
  have n1 : f a.min b.min ≠ nan := ne_nan_of_isFinite (hfin _ (by simp [corners]))
  have n2 : f a.min b.max ≠ nan := ne_nan_of_isFinite (hfin _ (by simp [corners]))
  have n3 : f a.max b.min ≠ nan := ne_nan_of_isFinite (hfin _ (by simp [corners]))
  have n4 : f a.max b.max ≠ nan := ne_nan_of_isFinite (hfin _ (by simp [corners]))
  obtain ⟨hm1, hm2⟩ := min4_spec n1 n2 n3 n4
  obtain ⟨hM1, hM2⟩ := max4_spec n1 n2 n3 n4
  have hperm : ∀ c : Dbl, c ∈ corners f a b ↔
      c ∈ [f a.min b.min, f a.min b.max, f a.max b.min, f a.max b.max] := by
    intro c
    simp only [corners, List.mem_cons, List.mem_singleton, List.not_mem_nil, or_false]
    tauto
  have hmc := (hperm _).2 hm1
  have hMc := (hperm _).2 hM1
  have hmle : ∀ c ∈ corners f a b, Dbl.le (Dbl.min (Dbl.min (f a.min b.min) (f a.min b.max))
      (Dbl.min (f a.max b.min) (f a.max b.max))) c = true :=
    fun c hc => hm2 c ((hperm c).1 hc)
  have hMle : ∀ c ∈ corners f a b, Dbl.le c (Dbl.max (Dbl.max (f a.min b.min) (f a.min b.max))
      (Dbl.max (f a.max b.min) (f a.max b.max))) = true :=
    fun c hc => hM2 c ((hperm c).1 hc)
  have emin := apply2_min_eq_down hstep hmono f a b hfin hmc hmle
  have emax := apply2_max_eq_up hstep hmono f a b hfin hMc hMle
  have hr : List.range (1 <<< 2) = [0, 1, 2, 3] := by decide
  refine ⟨bd_ext rfl emin emax, ⟨by rw [hr]; simp [cornerArgs], fun _ _ => rfl⟩, ⟨?_, ?_⟩,
    ⟨hmc, hmle⟩, ⟨hMc, hMle⟩⟩
  · obtain ⟨q, hq⟩ := Dbl.isFinite_iff.1 (hfin _ hmc)
    rw [emin, hq]
    exact Dbl.lt_of_lt_of_le (hstep q).1 (by simp [Dbl.le])
  · obtain ⟨q, hq⟩ := Dbl.isFinite_iff.1 (hfin _ hMc)
    rw [emax, hq]
    exact Dbl.lt_of_le_of_lt (by simp [Dbl.le]) (hstep q).2

/-- C15 at `f = *`, `a = (min -1, typical 0, max 2)`,
`b = (min -3, typical 1, max 5)` with binary64 stepping: the corner products
are `10, -5, -6, 3`, and the result is `(down(-6), 0, up(10))`. -/
theorem C15_binary_apply_formula_witness :
    MonoStep nextafter64 ∧
    apply2 nextafter64 times (mk3 (fin (-1)) (fin 0) (fin 2)) (mk3 (fin (-3)) (fin 1) (fin 5))
      = apply2Spec nextafter64 times (mk3 (fin (-1)) (fin 0) (fin 2))
          (mk3 (fin (-3)) (fin 1) (fin 5)) ∧
    apply2Spec nextafter64 times (mk3 (fin (-1)) (fin 0) (fin 2))
        (mk3 (fin (-3)) (fin 1) (fin 5))
      = mk3 (down nextafter64 (fin (-6))) (fin 0) (up nextafter64 (fin 10)) :=
  ⟨nextafter64_mono,
    (C15_binary_apply_formula nextafter64 nextafter64_strict nextafter64_mono times
      (mk3 (fin (-1)) (fin 0) (fin 2)) (mk3 (fin (-3)) (fin 1) (fin 5)) (by decide!)).1,
    by decide!⟩

end BoundedDouble
